import Mathlib

/-!
A shallow embedding, in Lean 4, of a geecache-style distributed read-through
cache written in Go, together with theorems checking its natural-language
specification against the code.

Modelling conventions:
- Go byte slices (`[]byte`) are modelled as `List Nat` (one `Nat` per byte).
- Go strings are Lean `String`; `len(s)` on a Go string is the UTF-8 byte
  length, modelled by `goLen`.
- Go `int64`/`int` quantities (`maxBytes`, `nbytes`) are modelled as `Int`;
  overflow at 2^63 is irrelevant here because the quantities track actual
  in-memory sizes.
- Fallible Go calls returning `(T, error)` are modelled as `Except String T`
  (the `String` is the error message).
- Methods that mutate a receiver through a pointer are modelled by explicit
  state passing: they return the updated value alongside their result.
-/

/-- Go `len(s)` for a string `s`: the length in UTF-8 bytes. -/
def goLen (s : String) : Nat :=
  s.utf8ByteSize

namespace Lru

/--
`lru.Cache` from the Go source: `maxBytes` (0 = unlimited), `nbytes`
(current used bytes), and the recency list `ll` paired with the index map
`cache map[string]*list.Element`.

`ll` models the `container/list` doubly linked list: the head of the Lean
list is the front (most recently used) and the last element is the back
(least recently used). The index map is represented implicitly: it always
maps exactly the keys occurring in `ll` to their nodes, so lookup by key in
`ll` models `c.cache[key]`. The `OnEvicted` callback field is not carried in
the state; instead the eviction-returning variants of the operations below
return the list of evicted entries, which is exactly the sequence of
`OnEvicted` invocations the Go code performs.
-/
structure Cache (V : Type) where
  maxBytes : Int
  nbytes : Int
  ll : List (String × V)

/-- `lru.New(maxBytes, onEvicted)`: empty list, empty map. -/
def New (V : Type) (maxBytes : Int) : Cache V :=
  { maxBytes := maxBytes, nbytes := 0, ll := [] }

/-- Size in bytes of one entry, as accounted by the Go code:
`int64(len(key)) + int64(value.Len())`. `vlen` models the dynamic
`Value.Len()` call. -/
def entrySize {V : Type} (vlen : V → Int) (p : String × V) : Int :=
  (goLen p.1 : Int) + vlen p.2

/-- The contents of the entries of a recency list, summed by `entrySize`. -/
def sizeSum {V : Type} (vlen : V → Int) (l : List (String × V)) : Int :=
  (l.map (entrySize vlen)).sum

/-- Key lookup in the recency list: models `c.cache[key]` (first — and, with
unique keys, only — entry with that key). -/
def Cache.lookup {V : Type} (c : Cache V) (key : String) : Option V :=
  (c.ll.find? (fun p => p.1 == key)).map (fun p => p.2)

/--
`Cache.Get`: if the key is present, move its node to the front
(`c.ll.MoveToFront(ele)`) and return its value with `true`; otherwise return
the zero value with `false`. Returns the (possibly reordered) cache state.
-/
def Cache.get {V : Type} (c : Cache V) (key : String) : Option V × Cache V :=
  match c.ll.find? (fun p => p.1 == key) with
  | some kv => (some kv.2, { c with ll := kv :: c.ll.eraseP (fun p => p.1 == key) })
  | none => (none, c)

/--
`Cache.RemoveOldest`: take the back element (`c.ll.Back()`); if present,
remove it from the list and the index, and subtract
`int64(len(key)) + int64(value.Len())` from `nbytes`. The removed entry is
returned (it is what the Go code passes to `OnEvicted`).
-/
def Cache.removeOldestE {V : Type} (vlen : V → Int) (c : Cache V) :
    Cache V × Option (String × V) :=
  match c.ll.getLast? with
  | none => (c, none)
  | some kv =>
      ({ c with ll := c.ll.dropLast,
                nbytes := c.nbytes - ((goLen kv.1 : Int) + vlen kv.2) },
       some kv)

/-- `Cache.RemoveOldest`, state part only. -/
def Cache.removeOldest {V : Type} (vlen : V → Int) (c : Cache V) : Cache V :=
  (c.removeOldestE vlen).1

/--
The eviction loop at the end of `Cache.Add`:
`for c.maxBytes != 0 && c.maxBytes < c.nbytes { c.RemoveOldest() }`.
The extra `c.ll ≠ []` guard makes the recursion terminate in Lean; it is the
only case in which the Go loop would not terminate (removing from an empty
list changes nothing), and that case is unreachable from any state the Go
code constructs with `maxBytes ≥ 0`. Returns the evicted entries in
eviction order.
-/
def Cache.evictFuel {V : Type} (vlen : V → Int) (fuel : Nat) (c : Cache V) :
    Cache V × List (String × V) :=
  match fuel with
  | 0 => (c, [])
  | fuel + 1 =>
      if c.maxBytes ≠ 0 ∧ c.maxBytes < c.nbytes ∧ c.ll.length ≠ 0 then
        let r := c.removeOldestE vlen
        let rest := Cache.evictFuel vlen fuel r.1
        (rest.1, r.2.toList ++ rest.2)
      else
        (c, [])

/-- The eviction loop with its exact fuel: each iteration removes one list
element, so `c.ll.length` rounds always suffice. -/
def Cache.evictE {V : Type} (vlen : V → Int) (c : Cache V) :
    Cache V × List (String × V) :=
  Cache.evictFuel vlen c.ll.length c

/--
`Cache.Add`: if the key exists, move its node to the front, adjust `nbytes`
by the value-size delta, and overwrite the value in place; otherwise push a
new entry at the front, record it in the index, and add the full entry size
to `nbytes`. Then run the eviction loop. Returns the evicted entries.
-/
def Cache.addE {V : Type} (vlen : V → Int) (c : Cache V) (key : String)
    (value : V) : Cache V × List (String × V) :=
  match c.ll.find? (fun p => p.1 == key) with
  | some kv =>
      Cache.evictE vlen
        { c with ll := (key, value) :: c.ll.eraseP (fun p => p.1 == key),
                 nbytes := c.nbytes + (vlen value - vlen kv.2) }
  | none =>
      Cache.evictE vlen
        { c with ll := (key, value) :: c.ll,
                 nbytes := c.nbytes + ((goLen key : Int) + vlen value) }

/-- `Cache.Add`, state part only. -/
def Cache.add {V : Type} (vlen : V → Int) (c : Cache V) (key : String)
    (value : V) : Cache V :=
  (c.addE vlen key value).1

/-- One external operation on the LRU store, for stating properties about
arbitrary operation sequences. -/
inductive Op (V : Type) where
  | add (key : String) (value : V)
  | get (key : String)
  | removeOldest

/-- Run one operation (state part). -/
def Cache.runOp {V : Type} (vlen : V → Int) (c : Cache V) : Op V → Cache V
  | .add k v => c.add vlen k v
  | .get k => (c.get k).2
  | .removeOldest => c.removeOldest vlen

/-- Run a sequence of operations from a state. -/
def Cache.runOps {V : Type} (vlen : V → Int) (c : Cache V) (ops : List (Op V)) :
    Cache V :=
  ops.foldl (Cache.runOp vlen) c

end Lru

/-- A Go `[]byte`, by value: the sequence of its bytes. -/
abbrev GoBytes := List Nat

namespace Geecache

/-- `ByteView`: an immutable view over a byte payload. At this level byte
slices are values; the aliasing-sensitive accessor claim (C10) is settled
against the heap-level model in the `HeapModel` namespace below, which
refines this one. -/
structure ByteView where
  b : GoBytes
deriving Repr, DecidableEq

/-- `ByteView.Len()` = `len(v.b)`. -/
def ByteView.len (v : ByteView) : Int :=
  (v.b.length : Int)

/-- `cloneBytes`: allocate a fresh slice of the same length and copy the
contents over. By value the copy is equal to the original; the freshness of
the allocation is visible only in the heap-level model. -/
def cloneBytes (b : GoBytes) : GoBytes :=
  b

/-- `ByteView.ByteSlice()`: `cloneBytes(v.b)`. -/
def ByteView.byteSlice (v : ByteView) : GoBytes :=
  cloneBytes v.b

/-- The `Value.Len()` dynamic call on the `ByteView` values geecache stores
in the LRU. -/
def bvLen : ByteView → Int :=
  ByteView.len

/-- `cache` (cache.go): `cacheBytes` plus the lazily created `lru.Cache`
(`nil` until the first `add`). The mutex is not carried: execution is
modelled sequentially. -/
structure GCache where
  cacheBytes : Int
  lru : Option (Lru.Cache ByteView)

/-- `cache.add`: create the LRU on first use with capacity `cacheBytes`,
then `lru.Add(key, value)`. -/
def GCache.add (c : GCache) (key : String) (value : ByteView) : GCache :=
  let l := match c.lru with
    | none => Lru.New ByteView c.cacheBytes
    | some l => l
  { c with lru := some (l.add bvLen key value) }

/-- `cache.get`: a `nil` LRU is a miss; otherwise `lru.Get(key)` (which on a
hit moves the entry to the front). -/
def GCache.get (c : GCache) (key : String) : Option ByteView × GCache :=
  match c.lru with
  | none => (none, c)
  | some l =>
      let r := l.get key
      (r.1, { c with lru := some r.2 })

/-- Pure observation of the cache contents (no recency change), for stating
properties. -/
def GCache.lookup (c : GCache) (key : String) : Option ByteView :=
  match c.lru with
  | none => none
  | some l => l.lookup key

/-- `PeerGetter`: fetch the value for `(group, key)` from one remote peer. -/
abbrev PeerGetter := String → String → Except String GoBytes

/-- `PeerPicker.PickPeer(key)`: resolve a key to the owning remote peer;
`(nil, false)` is modelled by `none`. -/
abbrev PeerPicker := String → Option PeerGetter

/-- Instrumentation attached to each call into a group: how many times the
call invoked the source-of-truth getter and how many times it called out to
a peer. This is not Go state; it makes invocation-count claims statable. -/
structure CallLog where
  getterCalls : Nat
  peerCalls : Nat
deriving Repr, DecidableEq

def CallLog.merge (a b : CallLog) : CallLog :=
  ⟨a.getterCalls + b.getterCalls, a.peerCalls + b.peerCalls⟩

/-- `Group` (the complete struct of part_002): namespace name, getter
callback, local `mainCache`, optional peer picker. The
`loader *singleflight.Group` field carries no data in a sequential
execution — `Do(key, fn)` with an empty in-flight table runs `fn` once and
deletes the entry again — so `Group.load` below inlines that call. -/
structure Group where
  name : String
  getter : String → Except String GoBytes
  mainCache : GCache
  peers : Option PeerPicker

/-- `Group.populateCache`: store a key/value pair into the main cache. -/
def Group.populateCache (g : Group) (key : String) (value : ByteView) : Group :=
  { g with mainCache := g.mainCache.add key value }

/-- `Group.getLocally`: invoke the getter; on failure propagate the error,
on success clone the bytes into a `ByteView`, `populateCache` it, and return
it. Exactly one getter invocation either way. -/
def Group.getLocally (g : Group) (key : String) :
    Except String ByteView × Group × CallLog :=
  match g.getter key with
  | .error e => (.error e, g, ⟨1, 0⟩)
  | .ok bytes =>
      let value : ByteView := ⟨cloneBytes bytes⟩
      (.ok value, g.populateCache key value, ⟨1, 0⟩)

/-- `Group.getFromPeer`: ask the peer for `(g.name, key)`; wrap the raw
bytes in a `ByteView` (the source does not clone here). -/
def Group.getFromPeer (g : Group) (peer : PeerGetter) (key : String) :
    Except String ByteView × CallLog :=
  match peer g.name key with
  | .error e => (.error e, ⟨0, 1⟩)
  | .ok bytes => (.ok ⟨bytes⟩, ⟨0, 1⟩)

/-- `Group.load` (part_002): inside `loader.Do` — run once, sequentially —
try the peer picker first; on a successful remote fetch return the value
without touching the local cache; on a remote failure (or no picker, or no
peer) fall through to `getLocally`. -/
def Group.load (g : Group) (key : String) :
    Except String ByteView × Group × CallLog :=
  match g.peers with
  | some picker =>
      match picker key with
      | some peer =>
          match g.getFromPeer peer key with
          | (.ok value, log) => (.ok value, g, log)
          | (.error _, log) =>
              let r := g.getLocally key
              (r.1, r.2.1, log.merge r.2.2)
      | none => g.getLocally key
  | none => g.getLocally key

/-- `Group.Get`: reject the empty key with `key is required`; otherwise
consult the main cache, returning a hit immediately; on a miss delegate to
`load`. -/
def Group.Get (g : Group) (key : String) :
    Except String ByteView × Group × CallLog :=
  if key = "" then (.error "key is required", g, ⟨0, 0⟩)
  else
    match g.mainCache.get key with
    | (some v, mc) => (.ok v, { g with mainCache := mc }, ⟨0, 0⟩)
    | (none, mc) => Group.load { g with mainCache := mc } key

/-- The process-wide `groups` map. An overwriting insert is modelled by
prepending; lookups take the first (newest) binding. -/
abbrev Registry := List (String × Group)

/-- `GetGroup`: read-locked lookup; a missing name is `nil`, not an error. -/
def GetGroup (reg : Registry) (name : String) : Option Group :=
  (reg.find? (fun p => p.1 == name)).map (fun p => p.2)

/-- `NewGroup` (the complete definition, part_001): panic on a nil getter —
modelled as `none` — else build the group with an empty cache of capacity
`cacheBytes`, insert it into the registry under its name (write lock), and
return it. -/
def NewGroup (reg : Registry) (name : String) (cacheBytes : Int)
    (getter : Option (String → Except String GoBytes)) :
    Option (Registry × Group) :=
  match getter with
  | none => none
  | some get =>
      let g : Group := { name := name, getter := get,
                         mainCache := { cacheBytes := cacheBytes, lru := none },
                         peers := none }
      some ((name, g) :: reg, g)

/-- Replace the (first) binding of `name` in the registry: models that the
registry holds a pointer to the group that `Group.Get` mutates through. -/
def Registry.update (reg : Registry) (name : String) (g : Group) : Registry :=
  match reg with
  | [] => []
  | p :: rest =>
      if p.1 = name then (name, g) :: rest else p :: Registry.update rest name g

/-- The body a response carries: `http.Error` writes its message (the
trailing newline appended by that out-of-repository helper is elided);
the 200 path writes raw value bytes. -/
inductive HttpBody where
  | msg (s : String)
  | bytes (bs : GoBytes)
deriving Repr, DecidableEq

/-- The observable response of the inbound handler. -/
structure Response where
  status : Nat
  contentType : Option String
  body : HttpBody
deriving Repr, DecidableEq

/-- Go `strings.HasPrefix(s, pre)`. UTF-8 is a prefix code, so byte-prefix
equals character-prefix. -/
def hasPrefixGo (s pre : String) : Bool :=
  pre.data.isPrefixOf s.data

/-- Go `strings.SplitN(s, "/", 2)`: `[s]` when `s` contains no `/`,
otherwise the part before the first `/` and everything after it. -/
def splitN2 (s : String) : List String :=
  let before := s.data.takeWhile (fun c => c ≠ '/')
  match s.data.dropWhile (fun c => c ≠ '/') with
  | [] => [String.mk before]
  | _ :: after => [String.mk before, String.mk after]

/-- `HTTPPool.ServeHTTP` (part_000): panic — modelled as `none` — when the
path does not start with the base path; split the remainder on the first
`/`; `400 bad request` when that does not give two parts; `404` for an
unknown group; `500` with the error text when `group.Get` fails; otherwise
`200`, `application/octet-stream`, body `view.ByteSlice()`. The base path
is ASCII (`/_geecache/`), so dropping `len(basePath)` bytes is dropping
that many characters. The touched group is written back to the registry. -/
def ServeHTTP (reg : Registry) (basePath path : String) :
    Option (Response × Registry) :=
  if hasPrefixGo path basePath then
    let parts := splitN2 (path.drop basePath.length)
    if parts.length ≠ 2 then
      some ({ status := 400, contentType := none, body := .msg "bad request" }, reg)
    else
      let groupName := parts.getD 0 ""
      let key := parts.getD 1 ""
      match GetGroup reg groupName with
      | none =>
          some ({ status := 404, contentType := none,
                  body := .msg ("no such group: " ++ groupName) }, reg)
      | some g =>
          match g.Get key with
          | (.error e, g', _) =>
              some ({ status := 500, contentType := none, body := .msg e },
                    reg.update groupName g')
          | (.ok view, g', _) =>
              some ({ status := 200, contentType := some "application/octet-stream",
                      body := .bytes view.byteSlice },
                    reg.update groupName g')
  else
    none

end Geecache

namespace Consistenthash

/-- `Map` from consistenthash.go: the injected hash function (modelled on
the string whose bytes Go would hash), the virtual-node count `replicas`,
the sequence `keys` of virtual-node hashes (ascending after `Add`), and
`hashMap` from virtual-node hash to real node name, with overwriting map
writes modelled by prepending. Hash values are `uint32` in Go, converted to
`int`; they are modelled as `Nat`. -/
structure HMap where
  hash : String → Nat
  replicas : Nat
  keys : List Nat
  hashMap : List (Nat × String)

/-- `consistenthash.New(replicas, fn)` with an explicit hash function (the
`nil`-defaults-to-CRC32 branch only picks which function is injected). -/
def New (replicas : Nat) (hash : String → Nat) : HMap :=
  { hash := hash, replicas := replicas, keys := [], hashMap := [] }

/-- The inner loop of `Map.Add` for one node: for `i < replicas`, hash
`strconv.Itoa(i) + key`, append to `keys`, record `hashMap[hash] = key`. -/
def HMap.addOne (m : HMap) (key : String) : HMap :=
  (List.range m.replicas).foldl
    (fun m i =>
      let h := m.hash (toString i ++ key)
      { m with keys := m.keys ++ [h], hashMap := (h, key) :: m.hashMap })
    m

/-- `Map.Add(keys...)`: add every node's virtual nodes, then
`sort.Ints(m.keys)`. -/
def HMap.Add (m : HMap) (ks : List String) : HMap :=
  let m' := ks.foldl HMap.addOne m
  { m' with keys := List.insertionSort (· ≤ ·) m'.keys }

/-- `Map.Get(key)`: empty ring → `""`; otherwise hash the key and use
`sort.Search` for the smallest index whose virtual-node hash is ≥ the key
hash (`n` when none). For the ascending `keys` produced by `Add` the
predicate is monotone and the binary search returns the first index
satisfying it, modelled by `findIdx` (which is `length` when none). The
node is `m.hashMap[m.keys[idx % len(m.keys)]]`, with the Go map's zero
value `""` for an absent key. -/
def HMap.Get (m : HMap) (key : String) : String :=
  if m.keys.length = 0 then ""
  else
    let h := m.hash key
    let idx := m.keys.findIdx (fun x => h ≤ x)
    ((m.hashMap.find? (fun p => p.1 == m.keys.getD (idx % m.keys.length) 0)).map
      (fun p => p.2)).getD ""

/-- C4, spec side, in the spec's words: on a non-empty ring, hash the key,
find the first virtual-node hash ≥ the key's hash, wrap to the first
element of the sequence if none exists, and return the real node mapped to
that virtual hash. -/
def HMap.GetSpec (m : HMap) (key : String) : String :=
  if m.keys.length = 0 then ""
  else
    let h := m.hash key
    let vh := match m.keys.find? (fun x => h ≤ x) with
      | some x => x
      | none => m.keys.headD 0
    ((m.hashMap.find? (fun p => p.1 == vh)).map (fun p => p.2)).getD ""

end Consistenthash

namespace HeapModel

/-- A heap of byte arrays: the aliasing-aware refinement used for the
defensive-copy claim. An address indexes into `arrays`. -/
structure Store where
  arrays : List GoBytes
deriving Repr, DecidableEq

/-- A Go slice reference (base pointer into the heap). -/
structure SliceRef where
  addr : Nat
deriving Repr, DecidableEq

/-- Read the bytes a slice refers to. -/
def Store.read (h : Store) (r : SliceRef) : GoBytes :=
  h.arrays.getD r.addr []

/-- Mutate the bytes a slice refers to (models writes through the slice). -/
def Store.write (h : Store) (r : SliceRef) (bs : GoBytes) : Store :=
  ⟨h.arrays.set r.addr bs⟩

/-- `make([]byte, n)` + initialisation: allocate a fresh array. -/
def Store.alloc (h : Store) (bs : GoBytes) : Store × SliceRef :=
  (⟨h.arrays ++ [bs]⟩, ⟨h.arrays.length⟩)

/-- `cloneBytes(b)` at the heap level: `make` a fresh array of the same
length and `copy` the contents into it. -/
def cloneBytesH (h : Store) (r : SliceRef) : Store × SliceRef :=
  h.alloc (h.read r)

/-- `ByteView` whose payload is a slice reference. -/
structure ByteViewH where
  b : SliceRef
deriving Repr, DecidableEq

/-- `ByteView.ByteSlice()` at the heap level: `cloneBytes(v.b)`. -/
def ByteViewH.byteSliceH (h : Store) (v : ByteViewH) : Store × SliceRef :=
  cloneBytesH h v.b

end HeapModel

namespace Lru

/-- Ghost-instrumented state for recency claims: alongside the cache, a
ghost map `touch` giving the step index at which each key was last touched
(by an `Add`, or by a `Get` that hit), and the next step index `now`. The
cache component evolves exactly by `Cache.runOp`. -/
structure Timed (V : Type) where
  c : Cache V
  touch : String → Nat
  now : Nat

/-- One ghost-instrumented step. -/
def Timed.step {V : Type} (vlen : V → Int) (s : Timed V) : Op V → Timed V
  | .add k v =>
      { c := s.c.add vlen k v,
        touch := fun x => if x = k then s.now else s.touch x,
        now := s.now + 1 }
  | .get k =>
      { c := (s.c.get k).2,
        touch :=
          if (s.c.lookup k).isSome then
            fun x => if x = k then s.now else s.touch x
          else s.touch,
        now := s.now + 1 }
  | .removeOldest =>
      { c := s.c.removeOldest vlen, touch := s.touch, now := s.now + 1 }

/-- Run a sequence of ghost-instrumented steps. -/
def Timed.run {V : Type} (vlen : V → Int) (s : Timed V) (ops : List (Op V)) :
    Timed V :=
  ops.foldl (Timed.step vlen) s

/-- Fresh ghost state over an empty cache. -/
def Timed.init (V : Type) (maxBytes : Int) : Timed V :=
  { c := New V maxBytes, touch := fun _ => 0, now := 1 }

/-- The recency invariant: keys are unique, the recency list is strictly
ordered front-to-back by decreasing last-touch step, and all touches are in
the past. -/
def TimedInv {V : Type} (s : Timed V) : Prop :=
  (s.c.ll.map Prod.fst).Nodup ∧
  s.c.ll.Pairwise (fun a b => s.touch b.1 < s.touch a.1) ∧
  ∀ p ∈ s.c.ll, s.touch p.1 < s.now

end Lru

/-- Byte size of a Go string used as an LRU value (the `Value.Len()` of a
string-valued entry, as in the repository's own LRU test). -/
def strLen (s : String) : Int :=
  (goLen s : Int)

namespace Geecache

/-- Well-formedness of a group's cache state: non-negative capacity and, if
the LRU exists, exact byte accounting, unique keys, and the capacity it was
created with. Holds for every group the Go code can construct (groups start
with a `nil` LRU created lazily with `cacheBytes`). -/
def GroupWF (g : Group) : Prop :=
  0 ≤ g.mainCache.cacheBytes ∧
  match g.mainCache.lru with
  | none => True
  | some l =>
      l.nbytes = Lru.sizeSum bvLen l.ll ∧ (l.ll.map Prod.fst).Nodup ∧
      l.maxBytes = g.mainCache.cacheBytes


/-- A concrete getter over the test database row `Tom -> "630"`, with an
error for every other key, for evaluating theorems on closed inputs. -/
def demoGetter : String → Except String GoBytes :=
  fun key => if key = "Tom" then .ok [54, 51, 48] else .error (key ++ " not exist")

/-- A concrete group with the repository test's capacity `2 << 10`. -/
def demoGroup : Group :=
  { name := "scores", getter := demoGetter,
    mainCache := { cacheBytes := 2048, lru := none }, peers := none }

/-- The same group with a capacity of one byte: every entry it stores is
over capacity and is evicted the moment it is stored. -/
def tinyGroup : Group :=
  { name := "scores", getter := demoGetter,
    mainCache := { cacheBytes := 1, lru := none }, peers := none }

/-- A registry holding only `demoGroup`. -/
def demoRegistry : Registry :=
  [("scores", demoGroup)]

end Geecache

namespace Singleflight

/-- One `call` record from singleflight.go, for the single key being
modelled. `done`: the `WaitGroup` counter has reached zero (`wg.Done()` has
run; in `Do` this coincides with `fn` having executed, since the code runs
`c.val, c.err = fn()` immediately followed by `c.wg.Done()`). `val`: `c.val`
— the result of `fn`, modelled as the index of the execution of `fn` that
produced it, so that results of distinct executions are observably
distinct. -/
structure Call where
  done : Bool
  val : Nat
deriving Repr, DecidableEq

/-- Program counter of one goroutine inside `Group.Do(key, fn)`, at the
granularity of the mutex-protected blocks of the source:
`notStarted`: the caller has not yet invoked `Do`;
`entry`: about to run the first locked block (lookup / insert);
`waiting id`: joined in-flight call `id`, blocked in `c.wg.Wait()`;
`running id`: owns call `id`, about to execute `fn` (and `wg.Done()`);
`deleting id`: about to run the second locked block, `delete(g.m, key)`;
`returning id`: about to execute `return c.val, c.err`;
`returned ret`: `Do` has returned with value `ret`. -/
inductive Pc where
  | notStarted
  | entry
  | waiting (id : Nat)
  | running (id : Nat)
  | deleting (id : Nat)
  | returning (id : Nat)
  | returned (ret : Nat)
deriving Repr, DecidableEq

/-- One goroutine: its program counter and, as ghost state, the call record
its invocation shares (set when it creates or joins a call). -/
structure Thread where
  pc : Pc
  myCall : Option Nat
deriving Repr, DecidableEq

/-- The shared state for one key: `table` is `g.m[key]` (`none` = absent),
`calls` the call records ever allocated (a call's id is its index — Go's
garbage-collected records are kept to speak about them), `execCount` the
number of times `fn` has executed, and one `Thread` per goroutine. -/
structure State where
  table : Option Nat
  calls : List Call
  execCount : Nat
  threads : List Thread
deriving Repr, DecidableEq

/-- `n` goroutines, none having called `Do` yet; `g.m` empty. -/
def init (n : Nat) : State :=
  { table := none, calls := [], execCount := 0,
    threads := List.replicate n ⟨.notStarted, none⟩ }

/-- One scheduler step: goroutine `i` performs its next atomic action,
mirroring `Group.Do`:
- `notStarted → entry`: the caller invokes `Do`.
- `entry`: first locked block: if `g.m[key]` holds a call, join it and block
  on its WaitGroup; else allocate a fresh `call`, `wg.Add(1)`, store it in
  `g.m[key]`, unlock, and proceed to run `fn`.
- `running id`: `c.val, c.err = fn(); c.wg.Done()` — the only action that
  executes `fn`.
- `deleting id`: second locked block: `delete(g.m, key)`.
- `returning id`: `return c.val, c.err`.
- `waiting id`: enabled once the call is done: `c.wg.Wait()` returns and the
  caller returns `c.val, c.err`.
A goroutine that is blocked (`waiting` on an unfinished call) or already
returned does nothing when scheduled. -/
def step (s : State) (i : Nat) : State :=
  match s.threads[i]? with
  | none => s
  | some t =>
    match t.pc with
    | .notStarted =>
        { s with threads := s.threads.set i { t with pc := .entry } }
    | .entry =>
        match s.table with
        | some id =>
            { s with threads := s.threads.set i ⟨.waiting id, some id⟩ }
        | none =>
            { s with calls := s.calls ++ [⟨false, 0⟩],
                     table := some s.calls.length,
                     threads := s.threads.set i
                       ⟨.running s.calls.length, some s.calls.length⟩ }
    | .running id =>
        { s with execCount := s.execCount + 1,
                 calls := s.calls.set id ⟨true, s.execCount + 1⟩,
                 threads := s.threads.set i { t with pc := .deleting id } }
    | .deleting id =>
        { s with table := none,
                 threads := s.threads.set i { t with pc := .returning id } }
    | .returning id =>
        { s with
          threads := s.threads.set i
            ({ t with pc := .returned (((s.calls[id]?).map Call.val).getD 0) }) }
    | .waiting id =>
        if ((s.calls[id]?).map Call.done).getD false = true then
          { s with
            threads := s.threads.set i
              ({ t with pc := .returned (((s.calls[id]?).map Call.val).getD 0) }) }
        else s
    | .returned _ => s

/-- Run a schedule (a list of goroutine indices) from the initial state. -/
def run (n : Nat) (sched : List Nat) : State :=
  sched.foldl step (init n)

/-- The schedule position at which goroutine `i` invokes `Do`: its first
scheduled step. -/
def startIdx (sched : List Nat) (i : Nat) : Option Nat :=
  if sched.findIdx (fun j => j == i) < sched.length then
    some (sched.findIdx (fun j => j == i))
  else none

/-- Whether goroutine `i` has returned from `Do` after the first `p + 1`
steps of the schedule. -/
def returnedBy (n : Nat) (sched : List Nat) (i p : Nat) : Bool :=
  match (run n (sched.take (p + 1))).threads[i]? with
  | some t =>
      match t.pc with
      | .returned _ => true
      | _ => false
  | none => false

/-- The schedule position after which goroutine `i` has returned. -/
def retIdx (n : Nat) (sched : List Nat) (i : Nat) : Option Nat :=
  (List.range sched.length).find? (fun p => returnedBy n sched i p)

/-- Invocations `i` and `j` overlap in time: each starts no later than the
step with which the other returns. -/
def overlap (n : Nat) (sched : List Nat) (i j : Nat) : Bool :=
  match startIdx sched i, startIdx sched j, retIdx n sched i,
      retIdx n sched j with
  | some si, some sj, some ei, some ej => decide (sj ≤ ei ∧ si ≤ ej)
  | _, _, _, _ => false

/-- The reachability invariant of the coalescer: `fn` has executed exactly
once per completed call record; every goroutine's call reference is in
range; a `running` owner's record is not yet done and is uniquely owned;
records referenced past `running` are done; a returned goroutine's value is
exactly its call record's value. -/
def SfInv (s : State) : Prop :=
  s.execCount = s.calls.countP (fun c => c.done) ∧
  (∀ (i : Nat) (t : Thread), s.threads[i]? = some t →
      ∀ (id : Nat), t.myCall = some id → id < s.calls.length) ∧
  (∀ (i : Nat) (t : Thread) (id : Nat), s.threads[i]? = some t →
      t.pc = .running id →
      t.myCall = some id ∧ (s.calls[id]?).map Call.done = some false) ∧
  (∀ (i j : Nat) (ti tj : Thread) (id : Nat), s.threads[i]? = some ti →
      s.threads[j]? = some tj →
      ti.pc = .running id → tj.pc = .running id → i = j) ∧
  (∀ (i : Nat) (t : Thread) (id : Nat), s.threads[i]? = some t →
      t.pc = .deleting id ∨ t.pc = .returning id →
      t.myCall = some id ∧ (s.calls[id]?).map Call.done = some true) ∧
  (∀ (i : Nat) (t : Thread) (id : Nat), s.threads[i]? = some t →
      t.pc = .waiting id → t.myCall = some id) ∧
  (∀ (i : Nat) (t : Thread) (ret id : Nat), s.threads[i]? = some t →
      t.pc = .returned ret →
      t.myCall = some id → (s.calls[id]?).map Call.done = some true ∧
        (s.calls[id]?).map Call.val = some ret) ∧
  (∀ (id : Nat), s.table = some id → id < s.calls.length)

end Singleflight

namespace Lru

theorem find?_eraseP_decomp {α : Type _} (p : α → Bool) :
    ∀ (l : List α) (a : α), l.find? p = some a →
      ∃ l₁ l₂, l = l₁ ++ a :: l₂ ∧ (∀ b ∈ l₁, ¬ p b) ∧ l.eraseP p = l₁ ++ l₂ := by
  intro l
  induction l with
  | nil => intro a h; simp at h
  | cons x xs ih =>
      intro a h
      by_cases hx : p x
      · rw [List.find?_cons_of_pos _ hx] at h
        cases h
        exact ⟨[], xs, rfl, by simp, by simp [List.eraseP_cons_of_pos hx]⟩
      · rw [List.find?_cons_of_neg _ hx] at h
        obtain ⟨l₁, l₂, hdec, hall, herase⟩ := ih a h
        refine ⟨x :: l₁, l₂, by simp [hdec], ?_, ?_⟩
        · intro b hb
          rcases List.mem_cons.mp hb with rfl | hb
          · simp [hx]
          · exact hall b hb
        · simp [List.eraseP_cons_of_neg hx, herase]

theorem perm_of_find? {α : Type _} {p : α → Bool} {l : List α} {a : α}
    (h : l.find? p = some a) : l.Perm (a :: l.eraseP p) := by
  obtain ⟨l₁, l₂, rfl, -, he⟩ := find?_eraseP_decomp p l a h
  rw [he]
  exact List.perm_middle

theorem entrySize_nonneg {V : Type} (vlen : V → Int) (hv : ∀ v, 0 ≤ vlen v)
    (p : String × V) : 0 ≤ entrySize vlen p :=
  add_nonneg (Int.natCast_nonneg _) (hv _)

theorem sizeSum_nil {V : Type} (vlen : V → Int) : sizeSum vlen [] = 0 := rfl

theorem sizeSum_cons {V : Type} (vlen : V → Int) (p : String × V)
    (l : List (String × V)) :
    sizeSum vlen (p :: l) = entrySize vlen p + sizeSum vlen l := by
  simp [sizeSum]

theorem sizeSum_append {V : Type} (vlen : V → Int) (l₁ l₂ : List (String × V)) :
    sizeSum vlen (l₁ ++ l₂) = sizeSum vlen l₁ + sizeSum vlen l₂ := by
  simp [sizeSum]

theorem sizeSum_perm {V : Type} (vlen : V → Int) {l₁ l₂ : List (String × V)}
    (h : l₁.Perm l₂) : sizeSum vlen l₁ = sizeSum vlen l₂ :=
  (h.map (entrySize vlen)).sum_eq

theorem sizeSum_nonneg {V : Type} (vlen : V → Int) (hv : ∀ v, 0 ≤ vlen v) :
    ∀ l : List (String × V), 0 ≤ sizeSum vlen l
  | [] => le_refl 0
  | p :: t => by
      rw [sizeSum_cons]
      exact add_nonneg (entrySize_nonneg vlen hv p) (sizeSum_nonneg vlen hv t)

theorem eq_dropLast_append_of_getLast? {α : Type _} :
    ∀ {l : List α} {a : α}, l.getLast? = some a → l = l.dropLast ++ [a]
  | [], a, h => by simp at h
  | [x], a, h => by
      simp only [List.getLast?_singleton, Option.some.injEq] at h
      simp [h]
  | x :: y :: t, a, h => by
      rw [List.getLast?_cons_cons] at h
      have := eq_dropLast_append_of_getLast? h
      calc x :: y :: t = x :: ((y :: t).dropLast ++ [a]) := by rw [← this]
        _ = (x :: y :: t).dropLast ++ [a] := by simp

theorem removeOldestE_maxBytes {V : Type} (vlen : V → Int) (c : Cache V) :
    ((c.removeOldestE vlen).1).maxBytes = c.maxBytes := by
  unfold Cache.removeOldestE
  cases c.ll.getLast? <;> rfl

theorem removeOldestE_accounting {V : Type} (vlen : V → Int) (c : Cache V)
    (h : c.nbytes = sizeSum vlen c.ll) :
    ((c.removeOldestE vlen).1).nbytes = sizeSum vlen ((c.removeOldestE vlen).1).ll := by
  unfold Cache.removeOldestE
  cases hl : c.ll.getLast? with
  | none => exact h
  | some kv =>
      have hdec := eq_dropLast_append_of_getLast? hl
      have : sizeSum vlen c.ll = sizeSum vlen c.ll.dropLast + entrySize vlen kv := by
        conv_lhs => rw [hdec]
        rw [sizeSum_append, sizeSum_cons, sizeSum_nil]
        ring
      simp only [h, this, entrySize]
      ring

theorem evictFuel_maxBytes {V : Type} (vlen : V → Int) :
    ∀ (fuel : Nat) (c : Cache V),
      ((Cache.evictFuel vlen fuel c).1).maxBytes = c.maxBytes
  | 0, _ => rfl
  | fuel + 1, c => by
      rw [Cache.evictFuel]
      by_cases hg : c.maxBytes ≠ 0 ∧ c.maxBytes < c.nbytes ∧ c.ll.length ≠ 0
      · simp only [if_pos hg]
        rw [evictFuel_maxBytes vlen fuel _]
        exact removeOldestE_maxBytes vlen c
      · simp only [if_neg hg]

theorem evictFuel_accounting {V : Type} (vlen : V → Int) :
    ∀ (fuel : Nat) (c : Cache V), c.nbytes = sizeSum vlen c.ll →
      ((Cache.evictFuel vlen fuel c).1).nbytes =
        sizeSum vlen ((Cache.evictFuel vlen fuel c).1).ll
  | 0, _, h => h
  | fuel + 1, c, h => by
      rw [Cache.evictFuel]
      by_cases hg : c.maxBytes ≠ 0 ∧ c.maxBytes < c.nbytes ∧ c.ll.length ≠ 0
      · simp only [if_pos hg]
        exact evictFuel_accounting vlen fuel _ (removeOldestE_accounting vlen c h)
      · simp only [if_neg hg]
        exact h

theorem evictFuel_bound {V : Type} (vlen : V → Int) (hv : ∀ v, 0 ≤ vlen v) :
    ∀ (fuel : Nat) (c : Cache V), c.ll.length ≤ fuel →
      c.nbytes = sizeSum vlen c.ll → 0 ≤ c.maxBytes → c.maxBytes ≠ 0 →
      ((Cache.evictFuel vlen fuel c).1).nbytes ≤ c.maxBytes
  | 0, c, hfuel, hacc, hpos, _ => by
      have : c.ll = [] := List.length_eq_zero.mp (Nat.le_zero.mp hfuel)
      rw [Cache.evictFuel]
      rw [hacc, this, sizeSum_nil]
      exact hpos
  | fuel + 1, c, hfuel, hacc, hpos, hne => by
      rw [Cache.evictFuel]
      by_cases hg : c.maxBytes ≠ 0 ∧ c.maxBytes < c.nbytes ∧ c.ll.length ≠ 0
      · simp only [if_pos hg]
        have hlen : ((c.removeOldestE vlen).1).ll.length ≤ fuel := by
          unfold Cache.removeOldestE
          cases hl : c.ll.getLast? with
          | none =>
              exact absurd (List.length_eq_zero.mpr
                (List.getLast?_eq_none_iff.mp hl)) hg.2.2
          | some kv =>
              simp only [List.length_dropLast]
              omega
        have := evictFuel_bound vlen hv fuel (c.removeOldestE vlen).1 hlen
          (removeOldestE_accounting vlen c hacc)
          (by rw [removeOldestE_maxBytes]; exact hpos)
          (by rw [removeOldestE_maxBytes]; exact hne)
        rwa [removeOldestE_maxBytes] at this
      · simp only [if_neg hg]
        rcases not_and_or.mp hg with h0 | h1
        · exact absurd hne h0
        · rcases not_and_or.mp h1 with h2 | h3
          · exact le_of_not_lt h2
          · have : c.ll = [] := List.length_eq_zero.mp (by omega)
            rw [hacc, this, sizeSum_nil]
            exact hpos

theorem runOp_inv {V : Type} (vlen : V → Int) (hv : ∀ v, 0 ≤ vlen v)
    (c : Cache V) (op : Op V)
    (hacc : c.nbytes = sizeSum vlen c.ll) (hpos : 0 ≤ c.maxBytes)
    (hbound : c.maxBytes ≠ 0 → c.nbytes ≤ c.maxBytes) :
    (c.runOp vlen op).nbytes = sizeSum vlen (c.runOp vlen op).ll ∧
      (c.runOp vlen op).maxBytes = c.maxBytes ∧
      ((c.runOp vlen op).maxBytes ≠ 0 →
        (c.runOp vlen op).nbytes ≤ (c.runOp vlen op).maxBytes) := by
  cases op with
  | get k =>
      simp only [Cache.runOp, Cache.get]
      cases hf : c.ll.find? (fun p => p.1 == k) with
      | none => exact ⟨hacc, rfl, hbound⟩
      | some kv =>
          dsimp only
          refine ⟨?_, rfl, ?_⟩
          · rw [hacc]
            exact sizeSum_perm vlen (perm_of_find? hf)
          · intro h
            exact hbound h
  | removeOldest =>
      simp only [Cache.runOp, Cache.removeOldest]
      refine ⟨removeOldestE_accounting vlen c hacc, removeOldestE_maxBytes vlen c, ?_⟩
      rw [removeOldestE_maxBytes]
      intro h
      unfold Cache.removeOldestE
      cases hl : c.ll.getLast? with
      | none => exact hbound h
      | some kv =>
          have h1 : 0 ≤ (goLen kv.1 : Int) + vlen kv.2 :=
            entrySize_nonneg vlen hv kv
          have h2 := hbound h
          dsimp only
          omega
  | add k v =>
      simp only [Cache.runOp, Cache.add, Cache.addE]
      cases hf : c.ll.find? (fun p => p.1 == k) with
      | some kv =>
          dsimp only
          obtain ⟨l₁, l₂, hdec, -, herase⟩ :=
            find?_eraseP_decomp (fun p => p.1 == k) c.ll kv hf
          have hk : kv.1 = k := by
            have := List.find?_some hf
            exact eq_of_beq this
          have hacc' :
              c.nbytes + (vlen v - vlen kv.2) =
                sizeSum vlen ((k, v) :: c.ll.eraseP (fun p => p.1 == k)) := by
            rw [sizeSum_cons, herase, sizeSum_append, hacc]
            conv_lhs => rw [hdec, sizeSum_append, sizeSum_cons]
            simp only [entrySize, hk]
            ring
          simp only [Cache.evictE]
          refine ⟨evictFuel_accounting vlen _ _ hacc', ?_, ?_⟩
          · rw [evictFuel_maxBytes]
          · rw [evictFuel_maxBytes]
            intro h
            exact evictFuel_bound vlen hv _ _ (le_refl _) hacc' hpos h
      | none =>
          dsimp only
          have hacc' :
              c.nbytes + ((goLen k : Int) + vlen v) =
                sizeSum vlen ((k, v) :: c.ll) := by
            rw [sizeSum_cons, hacc, entrySize]
            ring
          simp only [Cache.evictE]
          refine ⟨evictFuel_accounting vlen _ _ hacc', ?_, ?_⟩
          · rw [evictFuel_maxBytes]
          · rw [evictFuel_maxBytes]
            intro h
            exact evictFuel_bound vlen hv _ _ (le_refl _) hacc' hpos h

theorem runOps_inv {V : Type} (vlen : V → Int) (hv : ∀ v, 0 ≤ vlen v) :
    ∀ (ops : List (Op V)) (c : Cache V),
      c.nbytes = sizeSum vlen c.ll → 0 ≤ c.maxBytes →
      (c.maxBytes ≠ 0 → c.nbytes ≤ c.maxBytes) →
      (c.runOps vlen ops).nbytes = sizeSum vlen (c.runOps vlen ops).ll ∧
        (c.runOps vlen ops).maxBytes = c.maxBytes ∧
        ((c.runOps vlen ops).maxBytes ≠ 0 →
          (c.runOps vlen ops).nbytes ≤ (c.runOps vlen ops).maxBytes)
  | [], c, hacc, hpos, hbound => ⟨hacc, rfl, hbound⟩
  | op :: ops, c, hacc, hpos, hbound => by
      obtain ⟨h1, h2, h3⟩ := runOp_inv vlen hv c op hacc hpos hbound
      have hrec := runOps_inv vlen hv ops (c.runOp vlen op) h1 (h2 ▸ hpos)
        (fun hne => h3 (h2 ▸ hne))
      have hfold : Cache.runOps vlen c (op :: ops) =
          Cache.runOps vlen (c.runOp vlen op) ops := rfl
      rw [hfold]
      exact ⟨hrec.1, by rw [hrec.2.1, h2], hrec.2.2⟩

theorem evictFuel_rotation {V : Type} (vlen : V → Int) :
    ∀ (fuel : Nat) (c : Cache V),
      (Cache.evictFuel vlen fuel c).2 ++
        ((Cache.evictFuel vlen fuel c).1).ll.reverse = c.ll.reverse
  | 0, c => by simp [Cache.evictFuel]
  | fuel + 1, c => by
      rw [Cache.evictFuel]
      by_cases hg : c.maxBytes ≠ 0 ∧ c.maxBytes < c.nbytes ∧ c.ll.length ≠ 0
      · simp only [if_pos hg]
        unfold Cache.removeOldestE
        cases hl : c.ll.getLast? with
        | none =>
            exact absurd (List.length_eq_zero.mpr
              (List.getLast?_eq_none_iff.mp hl)) hg.2.2
        | some kv =>
            dsimp only
            simp only [Option.toList_some, List.singleton_append, List.cons_append,
              List.nil_append]
            rw [evictFuel_rotation vlen fuel _]
            dsimp only
            conv_rhs => rw [eq_dropLast_append_of_getLast? hl]
            simp
      · simp only [if_neg hg]
        simp

theorem evictFuel_sublist {V : Type} (vlen : V → Int) :
    ∀ (fuel : Nat) (c : Cache V),
      ((Cache.evictFuel vlen fuel c).1).ll.Sublist c.ll
  | 0, _ => List.Sublist.refl _
  | fuel + 1, c => by
      rw [Cache.evictFuel]
      by_cases hg : c.maxBytes ≠ 0 ∧ c.maxBytes < c.nbytes ∧ c.ll.length ≠ 0
      · simp only [if_pos hg]
        refine (evictFuel_sublist vlen fuel _).trans ?_
        unfold Cache.removeOldestE
        cases c.ll.getLast? with
        | none => exact List.Sublist.refl _
        | some kv => exact List.dropLast_sublist _
      · simp only [if_neg hg]
        exact List.Sublist.refl _

theorem find?_eq_none_keys {V : Type} {l : List (String × V)} {k : String}
    (hf : l.find? (fun p => p.1 == k) = none) : ∀ p ∈ l, p.1 ≠ k := by
  intro p hp
  have := List.find?_eq_none.mp hf p hp
  simpa using this

theorem eraseP_keys_ne {V : Type} {l : List (String × V)} {k : String}
    {kv : String × V} (hnd : (l.map Prod.fst).Nodup)
    (hf : l.find? (fun p => p.1 == k) = some kv) :
    ∀ p ∈ l.eraseP (fun p => p.1 == k), p.1 ≠ k := by
  obtain ⟨l₁, l₂, hdec, -, herase⟩ :=
    find?_eraseP_decomp (fun p => p.1 == k) l kv hf
  have hk : kv.1 = k := by simpa using List.find?_some hf
  subst hdec
  rw [herase]
  rw [List.map_append, List.map_cons] at hnd
  have hnotmem : kv.1 ∉ (l₁ ++ l₂).map Prod.fst := by
    rw [List.map_append]
    exact (List.nodup_cons.mp (List.nodup_middle.mp hnd)).1
  intro p hp hpk
  exact hnotmem (by
    rw [hk]
    rw [← hpk]
    exact List.mem_map_of_mem Prod.fst hp)

theorem add_pre_state {V : Type} (vlen : V → Int) (s : Timed V) (k : String)
    (v : V) (h : TimedInv s) :
    ∃ c₁ : Cache V, s.c.addE vlen k v = c₁.evictE vlen ∧
      c₁.maxBytes = s.c.maxBytes ∧
      (∃ rest, c₁.ll = (k, v) :: rest ∧ rest.Sublist s.c.ll ∧
        ∀ p ∈ rest, p.1 ≠ k) := by
  obtain ⟨hnd, hpw, hlt⟩ := h
  unfold Cache.addE
  cases hf : s.c.ll.find? (fun p => p.1 == k) with
  | some kv =>
      refine ⟨_, rfl, rfl, s.c.ll.eraseP (fun p => p.1 == k), rfl,
        List.eraseP_sublist _, eraseP_keys_ne hnd hf⟩
  | none =>
      exact ⟨_, rfl, rfl, s.c.ll, rfl, List.Sublist.refl _, find?_eq_none_keys hf⟩

theorem add_pre_pairwise {V : Type} (s : Timed V)
    (k : String) (v : V) (h : TimedInv s) {c₁ : Cache V} {rest}
    (hll : c₁.ll = (k, v) :: rest) (hsub : rest.Sublist s.c.ll)
    (hne : ∀ p ∈ rest, p.1 ≠ k) :
    c₁.ll.Pairwise (fun a b =>
        (if b.1 = k then s.now else s.touch b.1) <
        (if a.1 = k then s.now else s.touch a.1)) ∧
      (c₁.ll.map Prod.fst).Nodup ∧
      ∀ p ∈ c₁.ll, (if p.1 = k then s.now else s.touch p.1) < s.now + 1 := by
  obtain ⟨hnd, hpw, hlt⟩ := h
  rw [hll]
  refine ⟨?_, ?_, ?_⟩
  · rw [List.pairwise_cons]
    constructor
    · intro p hp
      rw [if_neg (hne p hp), if_pos rfl]
      exact hlt p (hsub.subset hp)
    · refine ((hpw.sublist hsub).imp_of_mem ?_)
      intro a b ha hb hab
      rw [if_neg (hne a ha), if_neg (hne b hb)]
      exact hab
  · rw [List.map_cons, List.nodup_cons]
    refine ⟨?_, (hnd.sublist (hsub.map Prod.fst))⟩
    intro hk
    obtain ⟨p, hp, hpk⟩ := List.mem_map.mp hk
    exact hne p hp hpk
  · intro p hp
    rcases List.mem_cons.mp hp with rfl | hp
    · simp
    · rw [if_neg (hne p hp)]
      exact Nat.lt_succ_of_lt (hlt p (hsub.subset hp))

theorem timedStep_inv {V : Type} (vlen : V → Int) (s : Timed V) (op : Op V)
    (h : TimedInv s) : TimedInv (s.step vlen op) := by
  obtain ⟨hnd, hpw, hlt⟩ := h
  cases op with
  | add k v =>
      obtain ⟨c₁, haddE, -, rest, hll, hsub, hne⟩ :=
        add_pre_state vlen s k v ⟨hnd, hpw, hlt⟩
      obtain ⟨hpw₁, hnd₁, hlt₁⟩ :=
        add_pre_pairwise s k v ⟨hnd, hpw, hlt⟩ hll hsub hne
      have hfin : ((s.c.addE vlen k v).1).ll.Sublist c₁.ll := by
        rw [haddE]
        exact evictFuel_sublist vlen _ _
      refine ⟨hnd₁.sublist (hfin.map Prod.fst), ?_, ?_⟩
      · exact hpw₁.sublist hfin
      · intro p hp
        exact hlt₁ p (hfin.subset hp)
  | get k =>
      cases hf : s.c.ll.find? (fun p => p.1 == k) with
      | none =>
          have hget : (s.c.get k).2 = s.c := by
            unfold Cache.get
            rw [hf]
          have hnot : (s.c.lookup k).isSome = false := by
            unfold Cache.lookup
            rw [hf]
            rfl
          refine ⟨?_, ?_, ?_⟩ <;>
            simp only [Timed.step, hget, hnot, Bool.false_eq_true, if_false]
          · exact hnd
          · exact hpw
          · exact fun p hp => Nat.lt_succ_of_lt (hlt p hp)
      | some kv =>
          have hk : kv.1 = k := by simpa using List.find?_some hf
          have hget : ((s.c.get k).2).ll =
              kv :: s.c.ll.eraseP (fun p => p.1 == k) := by
            unfold Cache.get
            rw [hf]
          have hsome : (s.c.lookup k).isSome = true := by
            unfold Cache.lookup
            rw [hf]
            rfl
          have hkv : (k, kv.2) = kv := by
            rw [← hk]
          obtain ⟨hpw₁, hnd₁, hlt₁⟩ :=
            @add_pre_pairwise V s k kv.2 ⟨hnd, hpw, hlt⟩
              { s.c with ll := kv :: s.c.ll.eraseP (fun p => p.1 == k) }
              (s.c.ll.eraseP (fun p => p.1 == k))
              (by rw [hkv]) (List.eraseP_sublist _) (eraseP_keys_ne hnd hf)
          refine ⟨?_, ?_, ?_⟩ <;>
            simp only [Timed.step, hget, hsome, if_true]
          · exact hnd₁
          · exact hpw₁
          · exact hlt₁
  | removeOldest =>
      have hsub : ((s.c.removeOldest vlen)).ll.Sublist s.c.ll := by
        unfold Cache.removeOldest Cache.removeOldestE
        cases s.c.ll.getLast? with
        | none => exact List.Sublist.refl _
        | some kv => exact List.dropLast_sublist _
      refine ⟨hnd.sublist (hsub.map Prod.fst), hpw.sublist hsub, ?_⟩
      intro p hp
      exact Nat.lt_succ_of_lt (hlt p (hsub.subset hp))

theorem timedRun_inv {V : Type} (vlen : V → Int) :
    ∀ (ops : List (Op V)) (s : Timed V), TimedInv s →
      TimedInv (s.run vlen ops)
  | [], _, h => h
  | op :: ops, s, h =>
      timedRun_inv vlen ops (s.step vlen op) (timedStep_inv vlen s op h)

theorem timedInit_inv {V : Type} (maxBytes : Int) :
    TimedInv (Timed.init V maxBytes) := by
  refine ⟨List.nodup_nil, List.Pairwise.nil, ?_⟩
  intro p hp
  simp [Timed.init, New] at hp

end Lru


namespace Lru

theorem evictFuel_head_stays {V : Type} (vlen : V → Int) :
    ∀ (fuel : Nat) (c : Cache V) (k : String) (v : V),
      c.ll.head? = some (k, v) → c.nbytes = sizeSum vlen c.ll →
      (c.maxBytes = 0 ∨ entrySize vlen (k, v) ≤ c.maxBytes) →
      ((Cache.evictFuel vlen fuel c).1).ll.head? = some (k, v)
  | 0, c, k, v, hh, _, _ => hh
  | fuel + 1, c, k, v, hh, hacc, hfit => by
      rw [Cache.evictFuel]
      by_cases hg : c.maxBytes ≠ 0 ∧ c.maxBytes < c.nbytes ∧ c.ll.length ≠ 0
      · simp only [if_pos hg]
        have hfit' : entrySize vlen (k, v) ≤ c.maxBytes := hfit.resolve_left hg.1
        obtain ⟨t, ht⟩ : ∃ t, c.ll = (k, v) :: t := by
          cases hll : c.ll with
          | nil => rw [hll] at hh; simp at hh
          | cons x t =>
              rw [hll] at hh
              simp only [List.head?_cons, Option.some.injEq] at hh
              exact ⟨t, by rw [hh]⟩
        cases ht' : t with
        | nil =>
            exfalso
            rw [ht, ht', sizeSum_cons, sizeSum_nil] at hacc
            have h1 := hg.2.1
            omega
        | cons y t2 =>
            apply evictFuel_head_stays vlen fuel
            · unfold Cache.removeOldestE
              cases hl : c.ll.getLast? with
              | none =>
                  exact absurd (List.length_eq_zero.mpr
                    (List.getLast?_eq_none_iff.mp hl)) hg.2.2
              | some kv =>
                  dsimp only
                  rw [ht, ht']
                  rfl
            · exact removeOldestE_accounting vlen c hacc
            · rw [removeOldestE_maxBytes]
              exact Or.inr hfit'
      · simp only [if_neg hg]
        exact hh

theorem lookup_of_head {V : Type} {c : Cache V} {k : String} {v : V}
    (h : c.ll.head? = some (k, v)) : c.lookup k = some v := by
  unfold Cache.lookup
  cases hll : c.ll with
  | nil => rw [hll] at h; simp at h
  | cons x t =>
      rw [hll] at h
      simp only [List.head?_cons, Option.some.injEq] at h
      subst h
      rw [List.find?_cons_of_pos _ (by simp)]
      rfl

theorem add_lookup_cold {V : Type} (vlen : V → Int) (c : Cache V) (k : String)
    (v : V) (hacc : c.nbytes = sizeSum vlen c.ll) (hcold : c.lookup k = none)
    (hfit : c.maxBytes = 0 ∨ entrySize vlen (k, v) ≤ c.maxBytes) :
    (c.add vlen k v).lookup k = some v := by
  have hf : c.ll.find? (fun p => p.1 == k) = none := by
    unfold Cache.lookup at hcold
    exact Option.map_eq_none'.mp hcold
  unfold Cache.add Cache.addE
  rw [hf]
  simp only [Cache.evictE]
  apply lookup_of_head
  apply evictFuel_head_stays vlen
  · rfl
  · rw [sizeSum_cons]
    simp only [entrySize]
    rw [hacc]
    ring
  · exact hfit

theorem get_of_lookup_none {V : Type} (c : Cache V) (k : String)
    (h : c.lookup k = none) : c.get k = (none, c) := by
  have hf : c.ll.find? (fun p => p.1 == k) = none := by
    unfold Cache.lookup at h
    exact Option.map_eq_none'.mp h
  unfold Cache.get
  rw [hf]

theorem get_of_lookup_some {V : Type} (c : Cache V) (k : String) (v : V)
    (h : c.lookup k = some v) : (c.get k).1 = some v := by
  unfold Cache.lookup at h
  unfold Cache.get
  cases hf : c.ll.find? (fun p => p.1 == k) with
  | none => rw [hf] at h; simp at h
  | some kv =>
      rw [hf] at h
      simp only [Option.map_some', Option.some.injEq] at h
      rw [← h]

end Lru

namespace Geecache

theorem gcache_get_of_lookup_none (c : GCache) (key : String)
    (h : c.lookup key = none) : c.get key = (none, c) := by
  obtain ⟨cb, lr⟩ := c
  cases lr with
  | none => rfl
  | some l =>
      unfold GCache.lookup at h
      dsimp only at h
      unfold GCache.get
      dsimp only
      rw [Lru.get_of_lookup_none l key h]

theorem gcache_get_of_lookup_some (c : GCache) (key : String) (v : ByteView)
    (h : c.lookup key = some v) : (c.get key).1 = some v := by
  obtain ⟨cb, lr⟩ := c
  cases lr with
  | none => simp [GCache.lookup] at h
  | some l =>
      unfold GCache.lookup at h
      dsimp only at h
      unfold GCache.get
      dsimp only
      exact Lru.get_of_lookup_some l key v h

theorem group_get_cold (g : Group) (key : String) (hk : key ≠ "")
    (hcold : g.mainCache.lookup key = none) : g.Get key = g.load key := by
  unfold Group.Get
  rw [if_neg hk, gcache_get_of_lookup_none _ _ hcold]

theorem group_get_hit (g : Group) (key : String) (v : ByteView)
    (hk : key ≠ "") (hhit : g.mainCache.lookup key = some v) :
    (g.Get key).1 = .ok v ∧ (g.Get key).2.2 = ⟨0, 0⟩ := by
  unfold Group.Get
  rw [if_neg hk]
  have hpair : g.mainCache.get key =
      (some v, (g.mainCache.get key).2) := by
    have h1 := gcache_get_of_lookup_some g.mainCache key v hhit
    rw [← h1]
  rw [hpair]
  exact ⟨rfl, rfl⟩

theorem populate_lookup (g : Group) (key : String) (bs : GoBytes)
    (hwf : GroupWF g) (hcold : g.mainCache.lookup key = none)
    (hfit : g.mainCache.cacheBytes = 0 ∨
      (goLen key : Int) + (bs.length : Int) ≤ g.mainCache.cacheBytes) :
    ((g.populateCache key ⟨bs⟩).mainCache).lookup key = some ⟨bs⟩ := by
  unfold Group.populateCache GCache.add GCache.lookup
  dsimp only
  cases hlr : g.mainCache.lru with
  | none =>
      apply Lru.add_lookup_cold
      · rfl
      · rfl
      · exact hfit
  | some l =>
      obtain ⟨-, hwf2⟩ := hwf
      rw [hlr] at hwf2
      obtain ⟨hacc, -, hmax⟩ := hwf2
      apply Lru.add_lookup_cold
      · exact hacc
      · unfold GCache.lookup at hcold
        rw [hlr] at hcold
        exact hcold
      · rw [hmax]
        exact hfit

end Geecache

/-- C3: after every sequence of Add/Get/RemoveOldest operations on a freshly
created bounded LRU store (non-negative capacity and value sizes, as in Go),
the tracked used-bytes counter `nbytes` exactly equals the sum of
`len(key) + value.Len()` over the currently resident entries, and `nbytes`
is at most `maxBytes` whenever `maxBytes` is non-zero. -/
theorem lru_byte_accounting {V : Type} (vlen : V → Int)
    (hv : ∀ v, 0 ≤ vlen v) (maxBytes : Int) (hpos : 0 ≤ maxBytes)
    (ops : List (Lru.Op V)) :
    ((Lru.New V maxBytes).runOps vlen ops).nbytes =
      Lru.sizeSum vlen ((Lru.New V maxBytes).runOps vlen ops).ll ∧
    (((Lru.New V maxBytes).runOps vlen ops).maxBytes ≠ 0 →
      ((Lru.New V maxBytes).runOps vlen ops).nbytes ≤
        ((Lru.New V maxBytes).runOps vlen ops).maxBytes) := by
  have h := Lru.runOps_inv vlen hv ops (Lru.New V maxBytes) rfl hpos
    (fun _ => hpos)
  exact ⟨h.1, h.2.2⟩

/-- Witness for C3, on the store of the LRU-correctness scenario: capacity 8,
string values sized by byte length. -/
theorem lru_byte_accounting_witness :
    ((Lru.New String 8).runOps strLen
        [.add "k1" "v1", .add "k2" "v2", .get "k1", .add "k3" "v3"]).nbytes =
      Lru.sizeSum strLen ((Lru.New String 8).runOps strLen
        [.add "k1" "v1", .add "k2" "v2", .get "k1", .add "k3" "v3"]).ll ∧
    (((Lru.New String 8).runOps strLen
        [.add "k1" "v1", .add "k2" "v2", .get "k1", .add "k3" "v3"]).maxBytes ≠ 0 →
      ((Lru.New String 8).runOps strLen
          [.add "k1" "v1", .add "k2" "v2", .get "k1", .add "k3" "v3"]).nbytes ≤
        ((Lru.New String 8).runOps strLen
          [.add "k1" "v1", .add "k2" "v2", .get "k1", .add "k3" "v3"]).maxBytes) :=
  lru_byte_accounting strLen (fun _ => Int.natCast_nonneg _) 8 (by decide)
    [.add "k1" "v1", .add "k2" "v2", .get "k1", .add "k3" "v3"]

/-- C9: `Group.Get` with the empty-string key returns the `key is required`
error, leaves the group — in particular all cache state — unchanged, and
performs no getter invocation and no peer call. -/
theorem group_get_empty_key (g : Geecache.Group) :
    g.Get "" = (.error "key is required", g, ⟨0, 0⟩) := rfl

/-- C6: constructing a group with a nil getter panics; with a non-nil getter
the group is inserted into the registry under its name so that `GetGroup`
finds it; `GetGroup` for a name never constructed returns the absent group
(`nil`) without error. -/
theorem newGroup_registration :
    (∀ (reg : Geecache.Registry) (name : String) (cb : Int),
        Geecache.NewGroup reg name cb none = none) ∧
    (∀ (reg : Geecache.Registry) (name : String) (cb : Int)
        (f : String → Except String GoBytes),
        ∃ g : Geecache.Group,
          Geecache.NewGroup reg name cb (some f) = some ((name, g) :: reg, g) ∧
          Geecache.GetGroup ((name, g) :: reg) name = some g) ∧
    (∀ (reg : Geecache.Registry) (name : String),
        (∀ p ∈ reg, p.1 ≠ name) → Geecache.GetGroup reg name = none) := by
  refine ⟨fun _ _ _ => rfl, ?_, ?_⟩
  · intro reg name cb f
    refine ⟨_, rfl, ?_⟩
    unfold Geecache.GetGroup
    rw [List.find?_cons_of_pos _ (by simp)]
    rfl
  · intro reg name h
    unfold Geecache.GetGroup
    rw [List.find?_eq_none.mpr (fun p hp => by simpa using h p hp)]
    rfl

/-- Witness for C6: a nil getter is refused; registering `demoGetter` under
`scores` in the empty registry makes it retrievable; lookup in the empty
registry returns the absent group. -/
theorem newGroup_registration_witness :
    Geecache.NewGroup [] "scores" 2048 none = none ∧
    (∃ g : Geecache.Group,
      Geecache.NewGroup [] "scores" 2048 (some Geecache.demoGetter) =
        some (("scores", g) :: [], g) ∧
      Geecache.GetGroup (("scores", g) :: []) "scores" = some g) ∧
    Geecache.GetGroup [] "scores" = none :=
  ⟨newGroup_registration.1 [] "scores" 2048,
   newGroup_registration.2.1 [] "scores" 2048 Geecache.demoGetter,
   newGroup_registration.2.2 [] "scores"
     (fun p hp => absurd hp (List.not_mem_nil p))⟩

/-- C8: a successful remote peer fetch inside `Group.load` returns the
fetched bytes wrapped as a `ByteView` with the group — in particular its
local LRU store — completely unchanged and no getter invocation; and only
local sourcing (`getLocally`) writes into the local store
(`populateCache`). -/
theorem load_remote_not_cached :
    (∀ (g : Geecache.Group) (key : String) (picker : Geecache.PeerPicker)
        (peer : Geecache.PeerGetter) (bs : GoBytes),
        g.peers = some picker → picker key = some peer →
        peer g.name key = .ok bs →
        g.load key = (.ok ⟨bs⟩, g, ⟨0, 1⟩)) ∧
    (∀ (g : Geecache.Group) (key : String) (bs : GoBytes),
        g.getter key = .ok bs →
        g.getLocally key = (.ok ⟨bs⟩, g.populateCache key ⟨bs⟩, ⟨1, 0⟩)) := by
  constructor
  · intro g key picker peer bs hpeers hpick hpeer
    unfold Geecache.Group.load
    rw [hpeers]
    dsimp only
    rw [hpick]
    dsimp only
    unfold Geecache.Group.getFromPeer
    rw [hpeer]
  · intro g key bs hget
    unfold Geecache.Group.getLocally
    rw [hget]
    rfl

/-- Witness for C8: a group wired to a peer that answers `[1, 2]` returns
those bytes from `load` with the group state unchanged; `getLocally` on
`demoGroup` stores `Tom`'s value. -/
theorem load_remote_not_cached_witness :
    ({ Geecache.demoGroup with
        peers := some (fun _ => some (fun _ _ => .ok [1, 2])) } :
      Geecache.Group).load "Tom" =
      (.ok ⟨[1, 2]⟩,
       { Geecache.demoGroup with
          peers := some (fun _ => some (fun _ _ => .ok [1, 2])) }, ⟨0, 1⟩) ∧
    Geecache.demoGroup.getLocally "Tom" =
      (.ok ⟨[54, 51, 48]⟩,
       Geecache.demoGroup.populateCache "Tom" ⟨[54, 51, 48]⟩, ⟨1, 0⟩) :=
  ⟨load_remote_not_cached.1 _ "Tom" _ _ [1, 2] rfl rfl rfl,
   load_remote_not_cached.2 Geecache.demoGroup "Tom" [54, 51, 48] rfl⟩

namespace Consistenthash

theorem find?_some_findIdx (p : Nat → Bool) :
    ∀ (l : List Nat) (x : Nat), l.find? p = some x →
      l.findIdx p < l.length ∧ l.getD (l.findIdx p) 0 = x
  | [], x, h => by simp at h
  | a :: t, x, h => by
      by_cases ha : p a
      · rw [List.find?_cons_of_pos _ ha] at h
        cases h
        rw [List.findIdx_cons]
        simp [ha]
      · rw [List.find?_cons_of_neg _ ha] at h
        obtain ⟨h1, h2⟩ := find?_some_findIdx p t x h
        rw [List.findIdx_cons]
        simp only [ha, cond_false]
        constructor
        · simpa using h1
        · simpa using h2

theorem find?_none_findIdx (p : Nat → Bool) :
    ∀ (l : List Nat), l.find? p = none → l.findIdx p = l.length
  | [], _ => rfl
  | a :: t, h => by
      by_cases ha : p a
      · rw [List.find?_cons_of_pos _ ha] at h
        simp at h
      · rw [List.find?_cons_of_neg _ ha] at h
        rw [List.findIdx_cons]
        simp only [ha, cond_false, List.length_cons]
        rw [find?_none_findIdx p t h]

end Consistenthash

/-- C4: `Map.Get` on an empty ring returns the empty node; on any ring it
agrees with the spec-side description `GetSpec` (hash the key, take the
first virtual-node hash ≥ the key's hash, wrapping to the first element of
the sorted sequence when none exists, and return the real node mapped to
that virtual hash); and on a fixed ring the result is a function of the
ring's state alone, so the same key always resolves to the same node. -/
theorem hashring_get_wrap :
    (∀ (m : Consistenthash.HMap) (key : String),
        m.keys = [] → m.Get key = "") ∧
    (∀ (m : Consistenthash.HMap) (key : String), m.Get key = m.GetSpec key) ∧
    (∀ (m m' : Consistenthash.HMap) (key : String),
        m.hash = m'.hash → m.keys = m'.keys → m.hashMap = m'.hashMap →
        m.Get key = m'.Get key) := by
  have heq : ∀ (m : Consistenthash.HMap) (key : String),
      m.Get key = m.GetSpec key := by
    intro m key
    unfold Consistenthash.HMap.Get Consistenthash.HMap.GetSpec
    by_cases h0 : m.keys.length = 0
    · rw [if_pos h0, if_pos h0]
    · rw [if_neg h0, if_neg h0]
      dsimp only
      cases hf : m.keys.find? (fun x => m.hash key ≤ x) with
      | some x =>
          obtain ⟨h1, h2⟩ := Consistenthash.find?_some_findIdx _ m.keys x hf
          rw [Nat.mod_eq_of_lt h1, h2]
      | none =>
          rw [Consistenthash.find?_none_findIdx _ _ hf, Nat.mod_self]
          cases hk : m.keys with
          | nil => exact absurd (by rw [hk]; rfl) h0
          | cons a t => rfl
  refine ⟨?_, heq, ?_⟩
  · intro m key hk
    unfold Consistenthash.HMap.Get
    rw [if_pos (by rw [hk]; rfl)]
  · intro m m' key h1 h2 h3
    unfold Consistenthash.HMap.Get
    rw [h1, h2, h3]

/-- Witness for C4: a fresh ring is empty and resolves to the empty node;
for a two-node ring with two replicas, `Get` agrees with the wrap-around
description and is reproducible. -/
theorem hashring_get_wrap_witness :
    (Consistenthash.New 2 (fun s => goLen s)).Get "Tom" = "" ∧
    ((Consistenthash.New 2 (fun s => goLen s)).Add ["peerA", "peerB"]).Get
        "Tom" =
      ((Consistenthash.New 2 (fun s => goLen s)).Add
        ["peerA", "peerB"]).GetSpec "Tom" ∧
    ((Consistenthash.New 2 (fun s => goLen s)).Add ["peerA", "peerB"]).Get
        "Tom" =
      ((Consistenthash.New 2 (fun s => goLen s)).Add ["peerA", "peerB"]).Get
        "Tom" :=
  ⟨hashring_get_wrap.1 (Consistenthash.New 2 (fun s => goLen s)) "Tom" rfl,
   hashring_get_wrap.2.1
     ((Consistenthash.New 2 (fun s => goLen s)).Add ["peerA", "peerB"]) "Tom",
   hashring_get_wrap.2.2
     ((Consistenthash.New 2 (fun s => goLen s)).Add ["peerA", "peerB"])
     ((Consistenthash.New 2 (fun s => goLen s)).Add ["peerA", "peerB"])
     "Tom" rfl rfl rfl⟩

/-- C10: `ByteView.ByteSlice()` hands back a defensive copy: a fresh slice
(different address), byte-for-byte equal to the view's payload; mutating
the returned slice leaves the bytes the cached view refers to — what any
subsequent read of the same cached key returns — unchanged. -/
theorem byteslice_defensive_copy (h : HeapModel.Store) (v : HeapModel.ByteViewH)
    (hvalid : v.b.addr < h.arrays.length) :
    ((v.byteSliceH h).2).addr ≠ v.b.addr ∧
    ((v.byteSliceH h).1).read (v.byteSliceH h).2 = h.read v.b ∧
    ((v.byteSliceH h).1).read v.b = h.read v.b ∧
    ∀ bs : GoBytes,
      (((v.byteSliceH h).1).write (v.byteSliceH h).2 bs).read v.b =
        h.read v.b := by
  unfold HeapModel.ByteViewH.byteSliceH HeapModel.cloneBytesH HeapModel.Store.alloc
  refine ⟨ne_of_gt hvalid, ?_, ?_, ?_⟩
  · unfold HeapModel.Store.read
    dsimp only
    rw [List.getD_eq_getElem?_getD, List.getElem?_concat_length]
    rfl
  · unfold HeapModel.Store.read
    dsimp only
    rw [List.getD_eq_getElem?_getD, List.getElem?_append_left hvalid,
      ← List.getD_eq_getElem?_getD]
  · intro bs
    unfold HeapModel.Store.write HeapModel.Store.read
    dsimp only
    rw [List.getD_eq_getElem?_getD,
      List.getElem?_set_ne (Nat.ne_of_gt hvalid),
      List.getElem?_append_left hvalid, ← List.getD_eq_getElem?_getD]

/-- Witness for C10: in a heap with one array `[1, 2, 3]` at address 0, the
slice returned by the accessor lives at a fresh address, and writing `[9]`
through it leaves the view's bytes unchanged. -/
theorem byteslice_defensive_copy_witness :
    ((HeapModel.ByteViewH.mk ⟨0⟩).byteSliceH ⟨[[1, 2, 3]]⟩).2.addr ≠
      (HeapModel.ByteViewH.mk ⟨0⟩).b.addr ∧
    ((((HeapModel.ByteViewH.mk ⟨0⟩).byteSliceH ⟨[[1, 2, 3]]⟩).1).write
        ((HeapModel.ByteViewH.mk ⟨0⟩).byteSliceH ⟨[[1, 2, 3]]⟩).2 [9]).read
        (HeapModel.ByteViewH.mk ⟨0⟩).b =
      (HeapModel.Store.mk [[1, 2, 3]]).read (HeapModel.ByteViewH.mk ⟨0⟩).b :=
  ⟨(byteslice_defensive_copy ⟨[[1, 2, 3]]⟩ (HeapModel.ByteViewH.mk ⟨0⟩)
      (by decide)).1,
   (byteslice_defensive_copy ⟨[[1, 2, 3]]⟩ (HeapModel.ByteViewH.mk ⟨0⟩)
      (by decide)).2.2.2 [9]⟩

/-- C7: the inbound peer handler panics on a path that does not start with
the base path; answers `400 bad request` when the remainder does not split
into two `/`-separated segments; `404` with `no such group: <name>` for an
unknown group; `500` with the error's message when the group's `Get` fails;
and otherwise `200` with `Content-Type: application/octet-stream` and the
value's raw bytes as body. -/
theorem servehttp_responses :
    (∀ (reg : Geecache.Registry) (basePath path : String),
        Geecache.hasPrefixGo path basePath = false →
        Geecache.ServeHTTP reg basePath path = none) ∧
    (∀ (reg : Geecache.Registry) (basePath path : String),
        Geecache.hasPrefixGo path basePath = true →
        (Geecache.splitN2 (path.drop basePath.length)).length ≠ 2 →
        Geecache.ServeHTTP reg basePath path =
          some ({ status := 400, contentType := none,
                  body := .msg "bad request" }, reg)) ∧
    (∀ (reg : Geecache.Registry) (basePath path gname key : String),
        Geecache.hasPrefixGo path basePath = true →
        Geecache.splitN2 (path.drop basePath.length) = [gname, key] →
        Geecache.GetGroup reg gname = none →
        Geecache.ServeHTTP reg basePath path =
          some ({ status := 404, contentType := none,
                  body := .msg ("no such group: " ++ gname) }, reg)) ∧
    (∀ (reg : Geecache.Registry) (basePath path gname key : String)
        (g g' : Geecache.Group) (e : String) (log : Geecache.CallLog),
        Geecache.hasPrefixGo path basePath = true →
        Geecache.splitN2 (path.drop basePath.length) = [gname, key] →
        Geecache.GetGroup reg gname = some g →
        g.Get key = (.error e, g', log) →
        Geecache.ServeHTTP reg basePath path =
          some ({ status := 500, contentType := none, body := .msg e },
                reg.update gname g')) ∧
    (∀ (reg : Geecache.Registry) (basePath path gname key : String)
        (g g' : Geecache.Group) (view : Geecache.ByteView)
        (log : Geecache.CallLog),
        Geecache.hasPrefixGo path basePath = true →
        Geecache.splitN2 (path.drop basePath.length) = [gname, key] →
        Geecache.GetGroup reg gname = some g →
        g.Get key = (.ok view, g', log) →
        Geecache.ServeHTTP reg basePath path =
          some ({ status := 200,
                  contentType := some "application/octet-stream",
                  body := .bytes view.byteSlice }, reg.update gname g')) := by
  refine ⟨?_, ?_, ?_, ?_, ?_⟩
  · intro reg basePath path hpre
    unfold Geecache.ServeHTTP
    rw [hpre]
    rfl
  · intro reg basePath path hpre hlen
    unfold Geecache.ServeHTTP
    rw [if_pos hpre]
    dsimp only
    rw [if_pos hlen]
  · intro reg basePath path gname key hpre hsplit hlook
    unfold Geecache.ServeHTTP
    rw [if_pos hpre]
    dsimp only
    rw [hsplit]
    rw [if_neg (by simp)]
    simp only [List.getD, List.get?_cons_zero, List.get?_cons_succ,
      Option.getD_some]
    rw [hlook]
  · intro reg basePath path gname key g g' e log hpre hsplit hlook hget
    unfold Geecache.ServeHTTP
    rw [if_pos hpre]
    dsimp only
    rw [hsplit]
    rw [if_neg (by simp)]
    simp only [List.getD, List.get?_cons_zero, List.get?_cons_succ,
      Option.getD_some]
    rw [hlook]
    dsimp only
    rw [hget]
  · intro reg basePath path gname key g g' view log hpre hsplit hlook hget
    unfold Geecache.ServeHTTP
    rw [if_pos hpre]
    dsimp only
    rw [hsplit]
    rw [if_neg (by simp)]
    simp only [List.getD, List.get?_cons_zero, List.get?_cons_succ,
      Option.getD_some]
    rw [hlook]
    dsimp only
    rw [hget]

/-- Witness for C7: the five handler outcomes on concrete requests against
`demoRegistry` (group `scores`, key `Tom` = `"630"`, key `Jack` missing). -/
theorem servehttp_responses_witness :
    Geecache.ServeHTTP [] "/_geecache/" "/x" = none ∧
    Geecache.ServeHTTP Geecache.demoRegistry "/_geecache/"
        "/_geecache/scores" =
      some ({ status := 400, contentType := none,
              body := .msg "bad request" }, Geecache.demoRegistry) ∧
    Geecache.ServeHTTP Geecache.demoRegistry "/_geecache/"
        "/_geecache/nogroup/x" =
      some ({ status := 404, contentType := none,
              body := .msg ("no such group: " ++ "nogroup") },
            Geecache.demoRegistry) ∧
    Geecache.ServeHTTP Geecache.demoRegistry "/_geecache/"
        "/_geecache/scores/Jack" =
      some ({ status := 500, contentType := none,
              body := .msg "Jack not exist" },
            Geecache.demoRegistry.update "scores" Geecache.demoGroup) ∧
    Geecache.ServeHTTP Geecache.demoRegistry "/_geecache/"
        "/_geecache/scores/Tom" =
      some ({ status := 200, contentType := some "application/octet-stream",
              body := .bytes (Geecache.ByteView.mk [54, 51, 48]).byteSlice },
            Geecache.demoRegistry.update "scores"
              (Geecache.demoGroup.Get "Tom").2.1) :=
  ⟨servehttp_responses.1 [] "/_geecache/" "/x" (by decide),
   servehttp_responses.2.1 Geecache.demoRegistry "/_geecache/"
     "/_geecache/scores" (by decide) (by decide),
   servehttp_responses.2.2.1 Geecache.demoRegistry "/_geecache/"
     "/_geecache/nogroup/x" "nogroup" "x" (by decide) (by decide) rfl,
   servehttp_responses.2.2.2.1 Geecache.demoRegistry "/_geecache/"
     "/_geecache/scores/Jack" "scores" "Jack" Geecache.demoGroup
     Geecache.demoGroup "Jack not exist" ⟨1, 0⟩ (by decide) (by decide)
     rfl rfl,
   servehttp_responses.2.2.2.2 Geecache.demoRegistry "/_geecache/"
     "/_geecache/scores/Tom" "scores" "Tom" Geecache.demoGroup
     (Geecache.demoGroup.Get "Tom").2.1 ⟨[54, 51, 48]⟩ ⟨1, 0⟩ (by decide)
     (by decide) rfl rfl⟩

/-- C1 (amended): for a group with no peer picker, a non-empty cold key
whose entry fits within the group's capacity (or the capacity is
unlimited), and a well-formed cache, the first `Get` invokes the getter
exactly once, clones and stores the returned bytes in the local store, and
returns them; the second `Get` for the same key is served from the store
with no getter invocation. A key the getter fails on yields that error with
the group — all cache state — unchanged, after exactly one getter
invocation. -/
theorem group_getter_once_per_cold_key :
    (∀ (g : Geecache.Group) (key : String) (bs : GoBytes),
        g.peers = none → key ≠ "" → g.mainCache.lookup key = none →
        Geecache.GroupWF g →
        (g.mainCache.cacheBytes = 0 ∨
          (goLen key : Int) + (bs.length : Int) ≤ g.mainCache.cacheBytes) →
        g.getter key = .ok bs →
        (g.Get key).1 = .ok ⟨bs⟩ ∧
        (g.Get key).2.2 = ⟨1, 0⟩ ∧
        ((g.Get key).2.1).mainCache.lookup key = some ⟨bs⟩ ∧
        (((g.Get key).2.1).Get key).1 = .ok ⟨bs⟩ ∧
        (((g.Get key).2.1).Get key).2.2 = ⟨0, 0⟩) ∧
    (∀ (g : Geecache.Group) (key : String) (e : String),
        g.peers = none → key ≠ "" → g.mainCache.lookup key = none →
        g.getter key = .error e →
        g.Get key = (.error e, g, ⟨1, 0⟩)) := by
  constructor
  · intro g key bs hpeers hkey hcold hwf hfit hget
    have hload : g.Get key = g.load key :=
      Geecache.group_get_cold g key hkey hcold
    have hlocal : g.load key = g.getLocally key := by
      unfold Geecache.Group.load
      rw [hpeers]
    have hgl : g.getLocally key =
        (.ok ⟨bs⟩, g.populateCache key ⟨bs⟩, ⟨1, 0⟩) := by
      unfold Geecache.Group.getLocally
      rw [hget]
      rfl
    have hres : g.Get key = (.ok ⟨bs⟩, g.populateCache key ⟨bs⟩, ⟨1, 0⟩) := by
      rw [hload, hlocal, hgl]
    have hlook := Geecache.populate_lookup g key bs hwf hcold hfit
    refine ⟨by rw [hres], by rw [hres], ?_, ?_, ?_⟩
    · rw [hres]
      exact hlook
    · rw [hres]
      exact (Geecache.group_get_hit _ key ⟨bs⟩ hkey hlook).1
    · rw [hres]
      exact (Geecache.group_get_hit _ key ⟨bs⟩ hkey hlook).2
  · intro g key e hpeers hkey hcold hget
    rw [Geecache.group_get_cold g key hkey hcold]
    unfold Geecache.Group.load
    rw [hpeers]
    unfold Geecache.Group.getLocally
    rw [hget]

/-- Witness for C1 (amended), on `demoGroup` (capacity 2048): key `Tom`
(entry size 6 fits) is sourced once and then served from the store; key
`Jack` propagates the getter's error unchanged. -/
theorem group_getter_once_per_cold_key_witness :
    ((Geecache.demoGroup.Get "Tom").1 = .ok ⟨[54, 51, 48]⟩ ∧
     (Geecache.demoGroup.Get "Tom").2.2 = ⟨1, 0⟩ ∧
     ((Geecache.demoGroup.Get "Tom").2.1).mainCache.lookup "Tom" =
       some ⟨[54, 51, 48]⟩ ∧
     (((Geecache.demoGroup.Get "Tom").2.1).Get "Tom").1 =
       .ok ⟨[54, 51, 48]⟩ ∧
     (((Geecache.demoGroup.Get "Tom").2.1).Get "Tom").2.2 = ⟨0, 0⟩) ∧
    Geecache.demoGroup.Get "Jack" =
      (.error "Jack not exist", Geecache.demoGroup, ⟨1, 0⟩) :=
  ⟨group_getter_once_per_cold_key.1 Geecache.demoGroup "Tom" [54, 51, 48]
     rfl (by decide) rfl ⟨by decide, trivial⟩ (Or.inr (by decide)) rfl,
   group_getter_once_per_cold_key.2 Geecache.demoGroup "Jack"
     "Jack not exist" rfl (by decide) rfl rfl⟩

/-- C1 counterexample: the claim as stated fails for a group whose capacity
is smaller than the entry: with `tinyGroup` (capacity 1 byte) the stored
entry is evicted by `Add`'s capacity loop immediately, the key is still
absent afterwards, and two successive `Get`s of the same cold key invoke
the getter twice — not exactly once. -/
theorem group_getter_twice_tiny_capacity :
    (Geecache.tinyGroup.Get "Tom").2.2.getterCalls +
        (((Geecache.tinyGroup.Get "Tom").2.1).Get "Tom").2.2.getterCalls = 2 ∧
    (((Geecache.tinyGroup.Get "Tom").2.1).mainCache).lookup "Tom" = none :=
  ⟨rfl, rfl⟩

/-- C2: (i) every state reached from a fresh store satisfies the recency
invariant — the recency list is strictly ordered, front to back, by
decreasing last-touch step (touches being `Add`s and `Get` hits); (ii) from
any state satisfying that invariant, the entries `Add` evicts when capacity
is exceeded are least-recently-touched: along the list of evicted entries
followed by the surviving entries (oldest first), last-touch steps are
non-decreasing, so each evicted entry's last touch is at most that of every
entry still present at its eviction; (iii) concretely, with capacity
size(k1)+size(v1)+size(k2)+size(v2) = 8: Add k1 v1, Add k2 v2, Get k1,
Add k3 v3 evicts exactly k2, and k1 and k3 remain. -/
theorem lru_evicts_least_recently_touched :
    (∀ (V : Type) (vlen : V → Int) (maxBytes : Int) (ops : List (Lru.Op V)),
        Lru.TimedInv ((Lru.Timed.init V maxBytes).run vlen ops)) ∧
    (∀ (V : Type) (vlen : V → Int) (s : Lru.Timed V) (k : String) (v : V),
        Lru.TimedInv s →
        ((s.c.addE vlen k v).2 ++
            ((s.c.addE vlen k v).1).ll.reverse).Pairwise
          (fun a b => (s.step vlen (.add k v)).touch a.1 ≤
            (s.step vlen (.add k v)).touch b.1)) ∧
    (((Lru.Cache.runOps strLen (Lru.New String 8)
          [.add "k1" "v1", .add "k2" "v2", .get "k1"]).addE strLen
        "k3" "v3").2 = [("k2", "v2")] ∧
      (Lru.Cache.runOps strLen (Lru.New String 8)
          [.add "k1" "v1", .add "k2" "v2", .get "k1",
            .add "k3" "v3"]).lookup "k1" = some "v1" ∧
      (Lru.Cache.runOps strLen (Lru.New String 8)
          [.add "k1" "v1", .add "k2" "v2", .get "k1",
            .add "k3" "v3"]).lookup "k3" = some "v3" ∧
      (Lru.Cache.runOps strLen (Lru.New String 8)
          [.add "k1" "v1", .add "k2" "v2", .get "k1",
            .add "k3" "v3"]).lookup "k2" = none) := by
  refine ⟨?_, ?_, rfl, rfl, rfl, rfl⟩
  · intro V vlen maxBytes ops
    exact Lru.timedRun_inv vlen ops _ (Lru.timedInit_inv maxBytes)
  · intro V vlen s k v hinv
    obtain ⟨c₁, haddE, -, rest, hll, hsub, hne⟩ :=
      Lru.add_pre_state vlen s k v hinv
    obtain ⟨hpw₁, -, -⟩ := Lru.add_pre_pairwise s k v hinv hll hsub hne
    rw [haddE]
    show ((Lru.Cache.evictFuel vlen c₁.ll.length c₁).2 ++
        ((Lru.Cache.evictFuel vlen c₁.ll.length c₁).1).ll.reverse).Pairwise _
    rw [Lru.evictFuel_rotation vlen c₁.ll.length c₁]
    rw [List.pairwise_reverse]
    refine hpw₁.imp ?_
    intro a b hab
    exact le_of_lt hab

/-- Witness for C2: the invariant holds after the four-operation scenario,
and the `Add k3 v3` step from the reachable three-operation state evicts in
least-recently-touched order. -/
theorem lru_evicts_least_recently_touched_witness :
    Lru.TimedInv ((Lru.Timed.init String 8).run strLen
      [.add "k1" "v1", .add "k2" "v2", .get "k1", .add "k3" "v3"]) ∧
    ((((Lru.Timed.init String 8).run strLen
            [.add "k1" "v1", .add "k2" "v2", .get "k1"]).c.addE strLen
          "k3" "v3").2 ++
        ((((Lru.Timed.init String 8).run strLen
            [.add "k1" "v1", .add "k2" "v2", .get "k1"]).c.addE strLen
          "k3" "v3").1).ll.reverse).Pairwise
      (fun a b =>
        (((Lru.Timed.init String 8).run strLen
            [.add "k1" "v1", .add "k2" "v2", .get "k1"]).step strLen
          (.add "k3" "v3")).touch a.1 ≤
        (((Lru.Timed.init String 8).run strLen
            [.add "k1" "v1", .add "k2" "v2", .get "k1"]).step strLen
          (.add "k3" "v3")).touch b.1) :=
  ⟨lru_evicts_least_recently_touched.1 String strLen 8
     [.add "k1" "v1", .add "k2" "v2", .get "k1", .add "k3" "v3"],
   lru_evicts_least_recently_touched.2.1 String strLen
     ((Lru.Timed.init String 8).run strLen
       [.add "k1" "v1", .add "k2" "v2", .get "k1"]) "k3" "v3"
     (lru_evicts_least_recently_touched.1 String strLen 8
       [.add "k1" "v1", .add "k2" "v2", .get "k1"])⟩

namespace Singleflight


theorem lt_of_getElem?_eq_some {α : Type _} {l : List α} {i : Nat} {a : α}
    (h : l[i]? = some a) : i < l.length := by
  by_contra hlt
  rw [List.getElem?_eq_none (Nat.le_of_not_lt hlt)] at h
  cases h

theorem getElem?_set' {α : Type _} (l : List α) (i j : Nat) (a : α)
    (hi : i < l.length) :
    (l.set i a)[j]? = if j = i then some a else l[j]? := by
  by_cases h : j = i
  · subst h
    rw [if_pos rfl]
    exact List.getElem?_set_eq_of_lt a hi
  · rw [if_neg h]
    exact List.getElem?_set_ne (Ne.symm h)

theorem countP_set_true {α : Type _} (p : α → Bool) :
    ∀ (l : List α) (id : Nat) (c c' : α), l[id]? = some c →
      p c = false → p c' = true →
      (l.set id c').countP p = l.countP p + 1
  | [], id, c, c', h, _, _ => by simp at h
  | x :: xs, 0, c, c', h, hc, hc' => by
      simp only [List.getElem?_cons_zero, Option.some.injEq] at h
      subst h
      simp [List.countP_cons, hc, hc']
  | x :: xs, id + 1, c, c', h, hc, hc' => by
      simp only [List.getElem?_cons_succ] at h
      have := countP_set_true p xs id c c' h hc hc'
      cases hx : p x <;>
        simp [List.countP_cons, hx, List.set_cons_succ, this]

theorem init_inv (n : Nat) : SfInv (init n) := by
  have hrep : ∀ (i : Nat) (t : Thread),
      (init n).threads[i]? = some t → t = ⟨.notStarted, none⟩ := by
    intro i t ht
    have hm : t ∈ (init n).threads := List.getElem?_mem ht
    exact List.eq_of_mem_replicate hm
  refine ⟨rfl, ?_, ?_, ?_, ?_, ?_, ?_, ?_⟩
  · intro i t ht id hmy
    rw [hrep i t ht] at hmy
    cases hmy
  · intro i t id ht hpc
    rw [hrep i t ht] at hpc
    cases hpc
  · intro i j ti tj id hti htj hpci hpcj
    rw [hrep i ti hti] at hpci
    cases hpci
  · intro i t id ht hpc
    rw [hrep i t ht] at hpc
    rcases hpc with hpc | hpc <;> cases hpc
  · intro i t id ht hpc
    rw [hrep i t ht] at hpc
    cases hpc
  · intro i t ret id ht hpc
    rw [hrep i t ht] at hpc
    cases hpc
  · intro id htab
    cases htab

theorem getElem?_set_cases {α : Type _} {l : List α} {i j : Nat} {a b : α}
    (hi : i < l.length) (h : (l.set i a)[j]? = some b) :
    (j = i ∧ b = a) ∨ (j ≠ i ∧ l[j]? = some b) := by
  by_cases hj : j = i
  · subst hj
    rw [List.getElem?_set_eq_of_lt a hi] at h
    cases h
    exact Or.inl ⟨rfl, rfl⟩
  · right
    exact ⟨hj, by rwa [List.getElem?_set_ne (Ne.symm hj)] at h⟩

theorem getElem?_append_cases {α : Type _} {l : List α} {x : α} {j : Nat}
    {b : α} (h : (l ++ [x])[j]? = some b) :
    (j = l.length ∧ b = x) ∨ (j < l.length ∧ l[j]? = some b) := by
  rcases Nat.lt_trichotomy j l.length with hj | hj | hj
  · right
    exact ⟨hj, by rwa [List.getElem?_append_left hj] at h⟩
  · subst hj
    rw [List.getElem?_concat_length] at h
    cases h
    exact Or.inl ⟨rfl, rfl⟩
  · exfalso
    rw [List.getElem?_eq_none (by simpa using hj)] at h
    cases h

set_option maxHeartbeats 1000000

theorem step_inv (s : State) (i : Nat) (h : SfInv s) : SfInv (step s i) := by
  obtain ⟨h1, h2, h3, h4, h5, h6, h7, h8⟩ := h
  unfold step
  cases ht : s.threads[i]? with
  | none => exact ⟨h1, h2, h3, h4, h5, h6, h7, h8⟩
  | some t =>
  have hilen : i < s.threads.length := lt_of_getElem?_eq_some ht
  obtain ⟨tpc, tmy⟩ := t
  cases tpc with
  | notStarted =>
      dsimp only
      refine ⟨h1, ?_, ?_, ?_, ?_, ?_, ?_, h8⟩
      · intro j tj htj id hmy
        rcases getElem?_set_cases hilen htj with ⟨rfl, rfl⟩ | ⟨-, htjb⟩
        · exact h2 j _ ht id hmy
        · exact h2 j tj htjb id hmy
      · intro j tj id htj hpcj
        rcases getElem?_set_cases hilen htj with ⟨rfl, rfl⟩ | ⟨-, htjb⟩
        · cases hpcj
        · exact h3 j tj id htjb hpcj
      · intro j k tj tk id htj htk hpcj hpck
        rcases getElem?_set_cases hilen htj with ⟨rfl, rfl⟩ | ⟨hj, htjb⟩
        · cases hpcj
        · rcases getElem?_set_cases hilen htk with ⟨rfl, rfl⟩ | ⟨hk, htkb⟩
          · cases hpck
          · exact h4 j k tj tk id htjb htkb hpcj hpck
      · intro j tj id htj hpcj
        rcases getElem?_set_cases hilen htj with ⟨rfl, rfl⟩ | ⟨-, htjb⟩
        · rcases hpcj with hpcj | hpcj <;> cases hpcj
        · exact h5 j tj id htjb hpcj
      · intro j tj id htj hpcj
        rcases getElem?_set_cases hilen htj with ⟨rfl, rfl⟩ | ⟨-, htjb⟩
        · cases hpcj
        · exact h6 j tj id htjb hpcj
      · intro j tj ret id htj hpcj hmy
        rcases getElem?_set_cases hilen htj with ⟨rfl, rfl⟩ | ⟨-, htjb⟩
        · cases hpcj
        · exact h7 j tj ret id htjb hpcj hmy
  | entry =>
      dsimp only
      cases htable : s.table with
      | some id0 =>
          dsimp only
          refine ⟨h1, ?_, ?_, ?_, ?_, ?_, ?_, ?_⟩
          · intro j tj htj id hmy
            rcases getElem?_set_cases hilen htj with ⟨rfl, rfl⟩ | ⟨-, htjb⟩
            · cases hmy
              exact h8 id0 htable
            · exact h2 j tj htjb id hmy
          · intro j tj id htj hpcj
            rcases getElem?_set_cases hilen htj with ⟨rfl, rfl⟩ | ⟨-, htjb⟩
            · cases hpcj
            · exact h3 j tj id htjb hpcj
          · intro j k tj tk id htj htk hpcj hpck
            rcases getElem?_set_cases hilen htj with ⟨rfl, rfl⟩ | ⟨hj, htjb⟩
            · cases hpcj
            · rcases getElem?_set_cases hilen htk with ⟨rfl, rfl⟩ | ⟨hk, htkb⟩
              · cases hpck
              · exact h4 j k tj tk id htjb htkb hpcj hpck
          · intro j tj id htj hpcj
            rcases getElem?_set_cases hilen htj with ⟨rfl, rfl⟩ | ⟨-, htjb⟩
            · rcases hpcj with hpcj | hpcj <;> cases hpcj
            · exact h5 j tj id htjb hpcj
          · intro j tj id htj hpcj
            rcases getElem?_set_cases hilen htj with ⟨rfl, rfl⟩ | ⟨-, htjb⟩
            · cases hpcj
              rfl
            · exact h6 j tj id htjb hpcj
          · intro j tj ret id htj hpcj hmy
            rcases getElem?_set_cases hilen htj with ⟨rfl, rfl⟩ | ⟨-, htjb⟩
            · cases hpcj
            · exact h7 j tj ret id htjb hpcj hmy
          · intro id htab
            cases htab
            exact h8 id0 htable
      | none =>
          dsimp only
          have hkeep : ∀ (id : Nat) (c : Call), s.calls[id]? = some c →
              (s.calls ++ [(⟨false, 0⟩ : Call)])[id]? = some c := by
            intro id c hc
            rw [List.getElem?_append_left (lt_of_getElem?_eq_some hc)]
            exact hc
          have hmapd : ∀ (id : Nat) (b : Bool),
              (s.calls[id]?).map Call.done = some b →
              ((s.calls ++ [(⟨false, 0⟩ : Call)])[id]?).map Call.done = some b := by
            intro id b hb
            rcases hx : s.calls[id]? with - | c
            · rw [hx] at hb; cases hb
            · rw [hkeep id c hx, ← hx]
              exact hb
          have hmapv : ∀ (id : Nat) (v : Nat),
              (s.calls[id]?).map Call.val = some v →
              ((s.calls ++ [(⟨false, 0⟩ : Call)])[id]?).map Call.val = some v := by
            intro id v hb
            rcases hx : s.calls[id]? with - | c
            · rw [hx] at hb; cases hb
            · rw [hkeep id c hx, ← hx]
              exact hb
          have hnew : ∀ {id : Nat},
              (s.calls[id]?).map Call.done = some false → id ≠ s.calls.length := by
            intro id hdone heq
            rcases hx : s.calls[id]? with - | c
            · rw [hx] at hdone; cases hdone
            · exact absurd (lt_of_getElem?_eq_some hx)
                (by rw [heq]; exact Nat.lt_irrefl _)
          refine ⟨?_, ?_, ?_, ?_, ?_, ?_, ?_, ?_⟩
          · show s.execCount = _
            rw [List.countP_append]
            simpa using h1
          · intro j tj htj id hmy
            simp only [List.length_append, List.length_singleton]
            rcases getElem?_set_cases hilen htj with ⟨rfl, rfl⟩ | ⟨-, htjb⟩
            · cases hmy
              omega
            · exact Nat.lt_succ_of_lt (h2 j tj htjb id hmy)
          · intro j tj id htj hpcj
            rcases getElem?_set_cases hilen htj with ⟨rfl, rfl⟩ | ⟨-, htjb⟩
            · cases hpcj
              refine ⟨rfl, ?_⟩
              rw [List.getElem?_concat_length]
              rfl
            · obtain ⟨hmy, hdone⟩ := h3 j tj id htjb hpcj
              exact ⟨hmy, hmapd id false hdone⟩
          · intro j k tj tk id htj htk hpcj hpck
            rcases getElem?_set_cases hilen htj with ⟨rfl, rfl⟩ | ⟨hj, htjb⟩
            · rcases getElem?_set_cases hilen htk with ⟨rfl, rfl⟩ | ⟨hk, htkb⟩
              · rfl
              · exfalso
                cases hpcj
                obtain ⟨-, hdone⟩ := h3 k tk _ htkb hpck
                exact hnew hdone rfl
            · rcases getElem?_set_cases hilen htk with ⟨rfl, rfl⟩ | ⟨hk, htkb⟩
              · exfalso
                cases hpck
                obtain ⟨-, hdone⟩ := h3 j tj _ htjb hpcj
                exact hnew hdone rfl
              · exact h4 j k tj tk id htjb htkb hpcj hpck
          · intro j tj id htj hpcj
            rcases getElem?_set_cases hilen htj with ⟨rfl, rfl⟩ | ⟨-, htjb⟩
            · rcases hpcj with hpcj | hpcj <;> cases hpcj
            · obtain ⟨hmy, hdone⟩ := h5 j tj id htjb hpcj
              exact ⟨hmy, hmapd id true hdone⟩
          · intro j tj id htj hpcj
            rcases getElem?_set_cases hilen htj with ⟨rfl, rfl⟩ | ⟨-, htjb⟩
            · cases hpcj
            · exact h6 j tj id htjb hpcj
          · intro j tj ret id htj hpcj hmy
            rcases getElem?_set_cases hilen htj with ⟨rfl, rfl⟩ | ⟨-, htjb⟩
            · cases hpcj
            · obtain ⟨hdone, hval⟩ := h7 j tj ret id htjb hpcj hmy
              exact ⟨hmapd id true hdone, hmapv id ret hval⟩
          · intro id htab
            cases htab
            simp only [List.length_append, List.length_singleton]
            omega
  | running id0 =>
      dsimp only
      obtain ⟨hmy0, hdone0⟩ := h3 i ⟨.running id0, tmy⟩ id0 ht rfl
      obtain ⟨c0, hc0, hc0d⟩ : ∃ c, s.calls[id0]? = some c ∧ c.done = false := by
        rcases hx : s.calls[id0]? with - | c
        · rw [hx] at hdone0; cases hdone0
        · rw [hx] at hdone0
          exact ⟨c, rfl, by simpa using hdone0⟩
      have hid0len : id0 < s.calls.length := lt_of_getElem?_eq_some hc0
      have hcset : ∀ (id : Nat) (b : Bool),
          (s.calls[id]?).map Call.done = some b → id ≠ id0 →
          ((s.calls.set id0 ⟨true, s.execCount + 1⟩)[id]?).map Call.done
            = some b := by
        intro id b hb hne
        rw [List.getElem?_set_ne (Ne.symm hne)]
        exact hb
      have hcsetv : ∀ (id : Nat) (v : Nat),
          (s.calls[id]?).map Call.val = some v → id ≠ id0 →
          ((s.calls.set id0 ⟨true, s.execCount + 1⟩)[id]?).map Call.val
            = some v := by
        intro id v hb hne
        rw [List.getElem?_set_ne (Ne.symm hne)]
        exact hb
      have hdne : ∀ (id : Nat),
          (s.calls[id]?).map Call.done = some true → id ≠ id0 := by
        intro id hb heq
        subst heq
        rw [hc0] at hb
        simp [hc0d] at hb
      refine ⟨?_, ?_, ?_, ?_, ?_, ?_, ?_, ?_⟩
      · show s.execCount + 1 = _
        rw [countP_set_true _ s.calls id0 c0 _ hc0 (by simp [hc0d]) (by simp),
          ← h1]
      · intro j tj htj id hmy
        simp only [List.length_set]
        rcases getElem?_set_cases hilen htj with ⟨rfl, rfl⟩ | ⟨-, htjb⟩
        · exact h2 j _ ht id hmy
        · exact h2 j tj htjb id hmy
      · intro j tj id htj hpcj
        rcases getElem?_set_cases hilen htj with ⟨rfl, rfl⟩ | ⟨hj, htjb⟩
        · cases hpcj
        · obtain ⟨hmy, hdone⟩ := h3 j tj id htjb hpcj
          have hne : id ≠ id0 := fun heq =>
            hj (h4 j i tj ⟨.running id0, tmy⟩ id0 htjb ht (heq ▸ hpcj) rfl)
          exact ⟨hmy, hcset id false hdone hne⟩
      · intro j k tj tk id htj htk hpcj hpck
        rcases getElem?_set_cases hilen htj with ⟨rfl, rfl⟩ | ⟨hj, htjb⟩
        · cases hpcj
        · rcases getElem?_set_cases hilen htk with ⟨rfl, rfl⟩ | ⟨hk, htkb⟩
          · cases hpck
          · exact h4 j k tj tk id htjb htkb hpcj hpck
      · intro j tj id htj hpcj
        rcases getElem?_set_cases hilen htj with ⟨rfl, rfl⟩ | ⟨-, htjb⟩
        · have hid : id = id0 := by
            rcases hpcj with hpcj | hpcj
            · cases hpcj
              rfl
            · cases hpcj
          subst hid
          refine ⟨hmy0, ?_⟩
          rw [List.getElem?_set_eq_of_lt _ hid0len]
          rfl
        · obtain ⟨hmy, hdone⟩ := h5 j tj id htjb hpcj
          exact ⟨hmy, hcset id true hdone (hdne id hdone)⟩
      · intro j tj id htj hpcj
        rcases getElem?_set_cases hilen htj with ⟨rfl, rfl⟩ | ⟨-, htjb⟩
        · cases hpcj
        · exact h6 j tj id htjb hpcj
      · intro j tj ret id htj hpcj hmy
        rcases getElem?_set_cases hilen htj with ⟨rfl, rfl⟩ | ⟨-, htjb⟩
        · cases hpcj
        · obtain ⟨hdone, hval⟩ := h7 j tj ret id htjb hpcj hmy
          exact ⟨hcset id true hdone (hdne id hdone),
            hcsetv id ret hval (hdne id hdone)⟩
      · intro id htab
        simp only [List.length_set]
        exact h8 id htab
  | deleting id0 =>
      dsimp only
      obtain ⟨hmy0, hdone0⟩ := h5 i ⟨.deleting id0, tmy⟩ id0 ht (Or.inl rfl)
      refine ⟨h1, ?_, ?_, ?_, ?_, ?_, ?_, ?_⟩
      · intro j tj htj id hmy
        rcases getElem?_set_cases hilen htj with ⟨rfl, rfl⟩ | ⟨-, htjb⟩
        · exact h2 j _ ht id hmy
        · exact h2 j tj htjb id hmy
      · intro j tj id htj hpcj
        rcases getElem?_set_cases hilen htj with ⟨rfl, rfl⟩ | ⟨-, htjb⟩
        · cases hpcj
        · exact h3 j tj id htjb hpcj
      · intro j k tj tk id htj htk hpcj hpck
        rcases getElem?_set_cases hilen htj with ⟨rfl, rfl⟩ | ⟨hj, htjb⟩
        · cases hpcj
        · rcases getElem?_set_cases hilen htk with ⟨rfl, rfl⟩ | ⟨hk, htkb⟩
          · cases hpck
          · exact h4 j k tj tk id htjb htkb hpcj hpck
      · intro j tj id htj hpcj
        rcases getElem?_set_cases hilen htj with ⟨rfl, rfl⟩ | ⟨-, htjb⟩
        · have hid : id = id0 := by
            rcases hpcj with hpcj | hpcj
            · cases hpcj
            · cases hpcj
              rfl
          subst hid
          exact ⟨hmy0, hdone0⟩
        · exact h5 j tj id htjb hpcj
      · intro j tj id htj hpcj
        rcases getElem?_set_cases hilen htj with ⟨rfl, rfl⟩ | ⟨-, htjb⟩
        · cases hpcj
        · exact h6 j tj id htjb hpcj
      · intro j tj ret id htj hpcj hmy
        rcases getElem?_set_cases hilen htj with ⟨rfl, rfl⟩ | ⟨-, htjb⟩
        · cases hpcj
        · exact h7 j tj ret id htjb hpcj hmy
      · intro id htab
        cases htab
  | returning id0 =>
      dsimp only
      obtain ⟨hmy0, hdone0⟩ := h5 i ⟨.returning id0, tmy⟩ id0 ht (Or.inr rfl)
      obtain ⟨c0, hc0, hc0d⟩ : ∃ c, s.calls[id0]? = some c ∧ c.done = true := by
        rcases hx : s.calls[id0]? with - | c
        · rw [hx] at hdone0; cases hdone0
        · rw [hx] at hdone0
          exact ⟨c, rfl, by simpa using hdone0⟩
      refine ⟨h1, ?_, ?_, ?_, ?_, ?_, ?_, h8⟩
      · intro j tj htj id hmy
        rcases getElem?_set_cases hilen htj with ⟨rfl, rfl⟩ | ⟨-, htjb⟩
        · exact h2 j _ ht id hmy
        · exact h2 j tj htjb id hmy
      · intro j tj id htj hpcj
        rcases getElem?_set_cases hilen htj with ⟨rfl, rfl⟩ | ⟨-, htjb⟩
        · cases hpcj
        · exact h3 j tj id htjb hpcj
      · intro j k tj tk id htj htk hpcj hpck
        rcases getElem?_set_cases hilen htj with ⟨rfl, rfl⟩ | ⟨hj, htjb⟩
        · cases hpcj
        · rcases getElem?_set_cases hilen htk with ⟨rfl, rfl⟩ | ⟨hk, htkb⟩
          · cases hpck
          · exact h4 j k tj tk id htjb htkb hpcj hpck
      · intro j tj id htj hpcj
        rcases getElem?_set_cases hilen htj with ⟨rfl, rfl⟩ | ⟨-, htjb⟩
        · rcases hpcj with hpcj | hpcj <;> cases hpcj
        · exact h5 j tj id htjb hpcj
      · intro j tj id htj hpcj
        rcases getElem?_set_cases hilen htj with ⟨rfl, rfl⟩ | ⟨-, htjb⟩
        · cases hpcj
        · exact h6 j tj id htjb hpcj
      · intro j tj ret id htj hpcj hmy
        rcases getElem?_set_cases hilen htj with ⟨rfl, rfl⟩ | ⟨-, htjb⟩
        · cases hpcj
          rw [hmy0] at hmy
          cases hmy
          refine ⟨hdone0, ?_⟩
          rw [hc0]
          rfl
        · exact h7 j tj ret id htjb hpcj hmy
  | waiting id0 =>
      dsimp only
      have hmy0 : tmy = some id0 := h6 i ⟨.waiting id0, tmy⟩ id0 ht rfl
      by_cases hg : ((s.calls[id0]?).map Call.done).getD false = true
      · rw [if_pos hg]
        obtain ⟨c0, hc0, hc0d⟩ : ∃ c, s.calls[id0]? = some c ∧ c.done = true := by
          rcases hx : s.calls[id0]? with - | c
          · rw [hx] at hg; cases hg
          · rw [hx] at hg
            exact ⟨c, rfl, by simpa using hg⟩
        refine ⟨h1, ?_, ?_, ?_, ?_, ?_, ?_, h8⟩
        · intro j tj htj id hmy
          rcases getElem?_set_cases hilen htj with ⟨rfl, rfl⟩ | ⟨-, htjb⟩
          · exact h2 j _ ht id hmy
          · exact h2 j tj htjb id hmy
        · intro j tj id htj hpcj
          rcases getElem?_set_cases hilen htj with ⟨rfl, rfl⟩ | ⟨-, htjb⟩
          · cases hpcj
          · exact h3 j tj id htjb hpcj
        · intro j k tj tk id htj htk hpcj hpck
          rcases getElem?_set_cases hilen htj with ⟨rfl, rfl⟩ | ⟨hj, htjb⟩
          · cases hpcj
          · rcases getElem?_set_cases hilen htk with ⟨rfl, rfl⟩ | ⟨hk, htkb⟩
            · cases hpck
            · exact h4 j k tj tk id htjb htkb hpcj hpck
        · intro j tj id htj hpcj
          rcases getElem?_set_cases hilen htj with ⟨rfl, rfl⟩ | ⟨-, htjb⟩
          · rcases hpcj with hpcj | hpcj <;> cases hpcj
          · exact h5 j tj id htjb hpcj
        · intro j tj id htj hpcj
          rcases getElem?_set_cases hilen htj with ⟨rfl, rfl⟩ | ⟨-, htjb⟩
          · cases hpcj
          · exact h6 j tj id htjb hpcj
        · intro j tj ret id htj hpcj hmy
          rcases getElem?_set_cases hilen htj with ⟨rfl, rfl⟩ | ⟨-, htjb⟩
          · cases hpcj
            rw [hmy0] at hmy
            cases hmy
            refine ⟨?_, ?_⟩
            · rw [hc0]
              simpa using hc0d
            · rw [hc0]
              rfl
          · exact h7 j tj ret id htjb hpcj hmy
      · rw [if_neg hg]
        exact ⟨h1, h2, h3, h4, h5, h6, h7, h8⟩
  | returned ret =>
      dsimp only
      exact ⟨h1, h2, h3, h4, h5, h6, h7, h8⟩
theorem foldl_step_inv : ∀ (sched : List Nat) (s : State), SfInv s →
    SfInv (sched.foldl step s)
  | [], _, h => h
  | i :: rest, s, h => foldl_step_inv rest (step s i) (step_inv s i h)

theorem run_inv (n : Nat) (sched : List Nat) : SfInv (run n sched) :=
  foldl_step_inv sched (init n) (init_inv n)

end Singleflight


/-- C5 (amended): in the interleaving model of `Do`, over every schedule:
`fn` has executed exactly once per completed in-flight call record — and so
at most once per call record ever created; any two callers that share the
same in-flight call record (including its executor) return the identical
result. Concretely: a caller that joins an in-flight call (overlapping
generations) yields one execution and identical results for all callers,
while a caller arriving after the entry is deleted — even one overlapping
the first caller's return — starts a fresh generation and `fn` runs again;
non-overlapping calls always run `fn` independently (no result outlives the
in-flight window). -/
theorem singleflight_coalescing :
    (∀ (n : Nat) (sched : List Nat),
        (Singleflight.run n sched).execCount =
          (Singleflight.run n sched).calls.countP (fun c => c.done) ∧
        (Singleflight.run n sched).execCount ≤
          (Singleflight.run n sched).calls.length) ∧
    (∀ (n : Nat) (sched : List Nat) (i j : Nat)
        (ti tj : Singleflight.Thread) (ri rj id : Nat),
        (Singleflight.run n sched).threads[i]? = some ti →
        (Singleflight.run n sched).threads[j]? = some tj →
        ti.pc = .returned ri → tj.pc = .returned rj →
        ti.myCall = some id → tj.myCall = some id →
        ri = rj) ∧
    (Singleflight.overlap 2 [0, 0, 1, 1, 0, 0, 0, 1] 0 1 = true ∧
      (Singleflight.run 2 [0, 0, 1, 1, 0, 0, 0, 1]).execCount = 1 ∧
      (Singleflight.run 2 [0, 0, 1, 1, 0, 0, 0, 1]).threads.map
          Singleflight.Thread.pc = [.returned 1, .returned 1]) ∧
    (Singleflight.overlap 2 [0, 0, 0, 0, 0, 1, 1, 1, 1, 1] 0 1 = false ∧
      (Singleflight.run 2 [0, 0, 0, 0, 0, 1, 1, 1, 1, 1]).execCount = 2) := by
  refine ⟨?_, ?_, ⟨by decide, by decide, by decide⟩, by decide, by decide⟩
  · intro n sched
    have h := Singleflight.run_inv n sched
    exact ⟨h.1, h.1 ▸ List.countP_le_length _⟩
  · intro n sched i j ti tj ri rj id hti htj hpci hpcj hmyi hmyj
    have h := Singleflight.run_inv n sched
    obtain ⟨-, hvi⟩ := h.2.2.2.2.2.2.1 i ti ri id hti hpci hmyi
    obtain ⟨-, hvj⟩ := h.2.2.2.2.2.2.1 j tj rj id htj hpcj hmyj
    rw [hvi] at hvj
    exact Option.some.inj hvj

/-- Witness for C5 (amended): in the schedule where goroutine 1 joins
goroutine 0's in-flight call, the invariant's conclusions hold and both
callers return the first execution's result. -/
theorem singleflight_coalescing_witness :
    ((Singleflight.run 2 [0, 0, 1, 1, 0, 0, 0, 1]).execCount =
      (Singleflight.run 2 [0, 0, 1, 1, 0, 0, 0, 1]).calls.countP
        (fun c => c.done) ∧
     (Singleflight.run 2 [0, 0, 1, 1, 0, 0, 0, 1]).execCount ≤
      (Singleflight.run 2 [0, 0, 1, 1, 0, 0, 0, 1]).calls.length) ∧
    (1 : Nat) = 1 :=
  ⟨singleflight_coalescing.1 2 [0, 0, 1, 1, 0, 0, 0, 1],
   singleflight_coalescing.2.1 2 [0, 0, 1, 1, 0, 0, 0, 1] 0 1
     ⟨.returned 1, some 0⟩ ⟨.returned 1, some 0⟩ 1 1 0
     (by decide) (by decide) rfl rfl rfl rfl⟩

/-- C5 counterexample: the claim as stated fails at the schedule in which
goroutine 1 calls `Do` after goroutine 0 has deleted the in-flight entry
but before goroutine 0's `return` executes: the two invocations overlap in
time, yet `fn` executes twice and the two callers observe different
results. -/
theorem singleflight_overlap_two_executions :
    Singleflight.overlap 2 [0, 0, 0, 0, 1, 1, 1, 0, 1, 1] 0 1 = true ∧
    (Singleflight.run 2 [0, 0, 0, 0, 1, 1, 1, 0, 1, 1]).execCount = 2 ∧
    (Singleflight.run 2 [0, 0, 0, 0, 1, 1, 1, 0, 1, 1]).threads.map
        Singleflight.Thread.pc = [.returned 1, .returned 2] := by
  exact ⟨by decide, by decide, by decide⟩
